import Mathlib

/-!
Verification of the scene-timeline and asset-resolution pipeline of the
tiktok video generator.

The Python sources `src/video_editor.py` and `src/video_downloader.py` are
shallowly embedded below.  Times and durations are modelled as exact
rationals (`ℚ`), Python dicts as structures (absent optional keys become
the default values that the downstream `dict.get` calls supply), Python
sets as `Finset String`, and calls to `random.*` as explicit oracle
arguments (an index stream `ℕ → ℕ`, reduced modulo the candidate count).
Network and subprocess results are inputs to the embedded functions.
-/

/-! ## String helpers

Python's `str.lower`, `str.replace`, `str.split` and the `re` idioms used
by the sources are re-implemented over `List Char` so that every
definition evaluates by kernel reduction. -/

/-- Python `str.lower`, applied characterwise. -/
def lowerStr (s : String) : String := String.mk (s.toList.map Char.toLower)

/-- One scan step of Python's `str.replace(old, new)`: non-overlapping
occurrences are replaced left to right.  The `ℕ` argument is an upper
bound on the number of scan steps (the caller passes the string length,
which suffices because every step consumes at least one character). -/
def replaceAux (pat rep : List Char) : ℕ → List Char → List Char
  | 0, s => s
  | _ + 1, [] => []
  | n + 1, c :: cs =>
    if pat.isPrefixOf (c :: cs) then rep ++ replaceAux pat rep n ((c :: cs).drop pat.length)
    else c :: replaceAux pat rep n cs

/-- Python `s.replace(old, new)` for a nonempty `old`. -/
def replaceStr (s old new : String) : String :=
  String.mk (replaceAux old.toList new.toList s.toList.length s.toList)

/-- Splitting a character list on whitespace, dropping empty pieces:
Python's argumentless `str.split()`.  The accumulator holds the current
word reversed. -/
def splitWsAux : List Char → List Char → List String
  | [], acc => if acc.isEmpty then [] else [String.mk acc.reverse]
  | c :: cs, acc =>
    if c.isWhitespace then
      if acc.isEmpty then splitWsAux cs [] else String.mk acc.reverse :: splitWsAux cs []
    else splitWsAux cs (c :: acc)

/-- Python `str.split()` (split on whitespace runs, no empty pieces). -/
def splitWs (s : String) : List String := splitWsAux s.toList []

/-- `" ".join(q.split())` from `clean_and_map_query`. -/
def joinWords (ws : List String) : String := String.intercalate " " ws

/-! ## Data model: scenes

`Scene` embeds the scene dicts of `video_editor.py`.  The optional keys
`segment_index`, `is_subcut`, `subcut_index`, `total_subcuts` are read
downstream with `scene.get(key, default)` / `'segment_index' in scene`;
absent keys are modelled by `none` (for `segment_index`) and by the
defaults `false`, `0`, `1` used by those `get` calls. -/

structure Scene where
  start_time : ℚ
  end_time : ℚ
  duration : ℚ
  text : String
  segment_index : Option ℕ := none
  is_subcut : Bool := false
  subcut_index : ℕ := 0
  total_subcuts : ℕ := 1
  deriving DecidableEq, Repr

instance : Inhabited Scene := ⟨⟨0, 0, 0, "", none, false, 0, 1⟩⟩

/-- `tiles a scenes b`: the scene list exactly partitions `[a, b]` in
order — each scene starts where the previous one ended, the first starts
at `a`, the last ends at `b`, and every `duration` field agrees with the
endpoints.  This is the spec-side partition invariant of §3 of the
specification ("an ordered set of Scenes must exactly partition
`[0, total_duration]` — no gaps, no overlaps"). -/
def tiles : ℚ → List Scene → ℚ → Prop
  | a, [], b => a = b
  | a, s :: rest, b =>
    s.start_time = a ∧ s.duration = s.end_time - s.start_time ∧ tiles s.end_time rest b

instance instDecidableTiles : (a : ℚ) → (l : List Scene) → (b : ℚ) → Decidable (tiles a l b)
  | _, [], _ => by unfold tiles; infer_instance
  | a, s :: rest, b => by
    unfold tiles
    have : Decidable (tiles s.end_time rest b) := instDecidableTiles s.end_time rest b
    infer_instance

/-! ## SceneSplitter (`create_semantic_scenes`, STEP 2,
`video_editor.py` lines 451-489) -/

/-- `int(np.ceil(scene['duration'] / max_scene_duration))`. -/
def num_subcuts (max_scene_duration duration : ℚ) : ℕ :=
  (⌈duration / max_scene_duration⌉).toNat

/-- The sub-cutting step applied to one scene (`video_editor.py`
lines 455-484): a scene longer than `max_scene_duration` is replaced by
`num_subcuts` equal sub-scenes (the last end snapped to the original
end), any other scene is passed through with `is_subcut` set to
`False`. -/
def splitScene (max_scene_duration : ℚ) (scene : Scene) : List Scene :=
  if max_scene_duration < scene.duration then
    let n := num_subcuts max_scene_duration scene.duration
    let subcut_duration := scene.duration / n
    (List.range n).map fun (i : ℕ) =>
      { start_time := scene.start_time + (i : ℚ) * subcut_duration
        end_time :=
          if i = n - 1 then scene.end_time
          else scene.start_time + ((i : ℚ) + 1) * subcut_duration
        duration :=
          (if i = n - 1 then scene.end_time
           else scene.start_time + ((i : ℚ) + 1) * subcut_duration) -
            (scene.start_time + (i : ℚ) * subcut_duration)
        text := scene.text
        segment_index := scene.segment_index
        is_subcut := true
        subcut_index := i
        total_subcuts := n }
  else [{ scene with is_subcut := false }]

/-! ## FallbackSceneGenerator, fixed-interval strategy
(`create_fixed_duration_scenes`, `video_editor.py` lines 572-600) -/

/-- The `while current_time < total_duration` loop of
`create_fixed_duration_scenes`.  The `ℕ` argument bounds the number of
iterations; `create_fixed_duration_scenes` passes
`⌈total/fixed⌉.toNat`, which is exactly the number of iterations the
Python loop performs when both arguments are positive. -/
def fixed_go (total_duration fixed_duration : ℚ) : ℕ → ℚ → ℕ → List Scene
  | 0, _, _ => []
  | n + 1, current_time, scene_index =>
    if current_time < total_duration then
      let e := min (current_time + fixed_duration) total_duration
      { start_time := current_time
        end_time := e
        duration := e - current_time
        text := "Scene " ++ toString scene_index } ::
        fixed_go total_duration fixed_duration n e (scene_index + 1)
    else []

/-- `create_fixed_duration_scenes(total_duration, fixed_duration)`. -/
def create_fixed_duration_scenes (total_duration : ℚ) (fixed_duration : ℚ) : List Scene :=
  fixed_go total_duration fixed_duration
    (num_subcuts fixed_duration total_duration) 0 1

/-! ## SegmentAligner (`create_semantic_scenes`, STEP 1,
`video_editor.py` lines 367-449) -/

/-- Word timings from the TTS collaborator: `{'word', 'start', 'end'}`.
The `end` key is a Lean keyword and is embedded as `stop`. -/
structure WordTiming where
  word : String
  start : ℚ
  stop : ℚ
  deriving DecidableEq, Repr

instance : Inhabited WordTiming := ⟨⟨"", 0, 0⟩⟩

/-- The punctuation class of the `normalize` helper,
`re.sub(r'[.,!?;:\'"()]', '', text)`.  The quote characters are written
via `Char.ofNat` (39 = single quote, 34 = double quote). -/
def normPunct : List Char := ['.', ',', '!', '?', ';', ':', Char.ofNat 39, Char.ofNat 34, '(', ')']

/-- `normalize(text)` from `create_semantic_scenes`: lowercase, strip
punctuation, split into words. -/
def normalizeWords (text : String) : List String :=
  splitWs (String.mk ((lowerStr text).toList.filter fun c => ¬ c ∈ normPunct))

/-- The first token of a timing's normalized word
(`normalize(word_timings[word_index]['word'])[0]`); defaults to `""`
for an empty normalization, a case the matching loop skips. -/
def timingToken (t : WordTiming) : String := (normalizeWords t.word).headI

/-- The inner `while word_index < len(word_timings) and matched_count <
len(segment_words)` loop of `create_semantic_scenes` (lines 403-424).
Instead of the Python index pair `(scene_start_idx, scene_end_idx)` the
embedding records the `start`/`stop` fields of the matched timings
directly (the Python code only ever reads
`word_timings[scene_start_idx]['start']` and
`word_timings[scene_end_idx]['end']`).  Returns the unconsumed timing
suffix, the match count and the recorded scene start/end times. -/
def matchLoop (segment_words : List String) :
    List WordTiming → ℕ → ℚ → ℚ → List WordTiming × ℕ × ℚ × ℚ
  | [], matched_count, ss, se => ([], matched_count, ss, se)
  | t :: rest, matched_count, ss, se =>
    if matched_count < segment_words.length then
      match normalizeWords t.word with
      | [] => matchLoop segment_words rest matched_count ss se
      | tw :: _ =>
        if segment_words.get? matched_count = some tw then
          matchLoop segment_words rest (matched_count + 1)
            (if matched_count = 0 then t.start else ss) t.stop
        else
          matchLoop segment_words rest matched_count ss se
    else (t :: rest, matched_count, ss, se)

/-- STEP 1 of `create_semantic_scenes`: the
`for segment_idx, segment in enumerate(script_data['segments'])` loop.
Each segment is matched against the remaining timings; a fully matched
segment contributes one base scene, others are skipped (the enumeration
index advances regardless). -/
def buildBaseScenes : List String → List WordTiming → ℕ → List Scene
  | [], _, _ => []
  | segment_text :: segments, timings, segment_idx =>
    let segment_words := normalizeWords segment_text
    if segment_words = [] then buildBaseScenes segments timings (segment_idx + 1)
    else
      let r := matchLoop segment_words timings 0 0 0
      if r.2.1 = segment_words.length then
        { start_time := r.2.2.1
          end_time := r.2.2.2
          duration := r.2.2.2 - r.2.2.1
          text := segment_text
          segment_index := some segment_idx } ::
          buildBaseScenes segments r.1 (segment_idx + 1)
      else buildBaseScenes segments r.1 (segment_idx + 1)

/-- `create_semantic_scenes(script_data, word_timings,
max_scene_duration)` (`video_editor.py` lines 344-489): `None` on empty
timings, empty segment list, or zero matched segments; otherwise the
base scenes with sub-cutting applied. -/
def create_semantic_scenes (segments : List String) (word_timings : List WordTiming)
    (max_scene_duration : ℚ) : Option (List Scene) :=
  if word_timings = [] then none
  else if segments = [] then none
  else
    let base_scenes := buildBaseScenes segments word_timings 0
    if base_scenes = [] then none
    else some (base_scenes.flatMap (splitScene max_scene_duration))

/-! ## Generic lemmas about `tiles` and telescoping sums -/

lemma sum_range_map_sub (g : ℕ → ℚ) (n : ℕ) :
    ((List.range n).map (fun i => g (i + 1) - g i)).sum = g n - g 0 := by
  induction n with
  | zero => simp
  | succ n ih =>
    rw [List.range_succ, List.map_append, List.sum_append, ih]
    simp [add_sub_cancel]

lemma num_subcuts_pos {M D : ℚ} (hM : 0 < M) (hD : M < D) :
    1 ≤ num_subcuts M D := by
  have h1 : (1 : ℚ) < D / M := (one_lt_div hM).mpr hD
  have h2 : (1 : ℤ) ≤ ⌈D / M⌉ := by
    have := Int.le_ceil (D / M)
    exact_mod_cast le_trans h1.le this
  unfold num_subcuts
  omega

lemma splitScene_of_le {M : ℚ} {s : Scene} (h : s.duration ≤ M) :
    splitScene M s = [{ s with is_subcut := false }] := by
  unfold splitScene
  rw [if_neg (not_lt.mpr h)]
lemma splitScene_of_lt {M : ℚ} {s : Scene} (h : M < s.duration) :
    splitScene M s = (List.range (num_subcuts M s.duration)).map (fun (i : ℕ) =>
      { start_time := s.start_time + (i : ℚ) * (s.duration / (num_subcuts M s.duration : ℚ))
        end_time :=
          if i = num_subcuts M s.duration - 1 then s.end_time
          else s.start_time + ((i : ℚ) + 1) * (s.duration / (num_subcuts M s.duration : ℚ))
        duration :=
          (if i = num_subcuts M s.duration - 1 then s.end_time
           else s.start_time + ((i : ℚ) + 1) * (s.duration / (num_subcuts M s.duration : ℚ))) -
            (s.start_time + (i : ℚ) * (s.duration / (num_subcuts M s.duration : ℚ)))
        text := s.text
        segment_index := s.segment_index
        is_subcut := true
        subcut_index := i
        total_subcuts := num_subcuts M s.duration }) := by
  unfold splitScene
  rw [if_pos h]

lemma telescoping_subcut_sum (st en d : ℚ) (n : ℕ) (hn : 1 ≤ n) :
    ((List.range n).map (fun (i : ℕ) =>
      (if i = n - 1 then en else st + ((i : ℚ) + 1) * d) - (st + (i : ℚ) * d))).sum = en - st := by
  have hcong : ∀ i ∈ List.range n,
      (fun (i : ℕ) => (if i = n - 1 then en else st + ((i : ℚ) + 1) * d) - (st + (i : ℚ) * d)) i =
      (fun (i : ℕ) => (if i + 1 = n then en else st + ((i + 1 : ℕ) : ℚ) * d) -
        (if i = n then en else st + (i : ℚ) * d)) i := by
    intro i hi
    rw [List.mem_range] at hi
    have h2 : i ≠ n := by omega
    by_cases hc : i + 1 = n
    · have h3 : i = n - 1 := by omega
      simp only [if_pos h3, if_pos hc, if_neg h2]
    · have h3 : i ≠ n - 1 := by omega
      simp only [if_neg h3, if_neg hc, if_neg h2]
      push_cast
      ring
  rw [List.map_congr_left hcong]
  have h2 := sum_range_map_sub (fun (i : ℕ) => if i = n then en else st + (i : ℚ) * d) n
  simp only [] at h2
  rw [h2]
  have h0 : ¬ (0 = n) := by omega
  simp [h0]

/-- C1: a scene whose duration `D` exceeds `max_scene_duration = M` is
replaced by exactly `⌈D/M⌉` sub-scenes whose durations sum exactly to
`D`, the first starting at the parent's `start_time`, the last ending at
the parent's `end_time`, each keeping the parent's `segment_index` and
`text`, with `is_subcut = true`, `subcut_index = 0..n-1` and
`total_subcuts = ⌈D/M⌉`; a scene with duration at most `M` is passed
through unchanged except for `is_subcut = false`. -/
theorem splitScene_spec (s : Scene) (M : ℚ) (hM : 0 < M)
    (hdur : s.duration = s.end_time - s.start_time) :
    (M < s.duration →
      (splitScene M s).length = num_subcuts M s.duration ∧
      ((splitScene M s).map Scene.duration).sum = s.duration ∧
      (splitScene M s).head?.map Scene.start_time = some s.start_time ∧
      (splitScene M s).getLast?.map Scene.end_time = some s.end_time ∧
      (∀ j, (hj : j < (splitScene M s).length) →
        (splitScene M s)[j].segment_index = s.segment_index ∧
        (splitScene M s)[j].text = s.text ∧
        (splitScene M s)[j].is_subcut = true ∧
        (splitScene M s)[j].subcut_index = j ∧
        (splitScene M s)[j].total_subcuts = num_subcuts M s.duration)) ∧
    (s.duration ≤ M → splitScene M s = [{ s with is_subcut := false }]) := by
  constructor
  · intro h
    have hn : 1 ≤ num_subcuts M s.duration := num_subcuts_pos hM h
    rw [splitScene_of_lt h]
    refine ⟨by simp, ?_, ?_, ?_, ?_⟩
    · rw [List.map_map]
      have hfun : (Scene.duration ∘ fun (i : ℕ) =>
          ({ start_time := s.start_time + (i : ℚ) * (s.duration / (num_subcuts M s.duration : ℚ))
             end_time :=
               if i = num_subcuts M s.duration - 1 then s.end_time
               else s.start_time + ((i : ℚ) + 1) * (s.duration / (num_subcuts M s.duration : ℚ))
             duration :=
               (if i = num_subcuts M s.duration - 1 then s.end_time
                else s.start_time + ((i : ℚ) + 1) * (s.duration / (num_subcuts M s.duration : ℚ))) -
                 (s.start_time + (i : ℚ) * (s.duration / (num_subcuts M s.duration : ℚ)))
             text := s.text
             segment_index := s.segment_index
             is_subcut := true
             subcut_index := i
             total_subcuts := num_subcuts M s.duration } : Scene)) =
          fun (i : ℕ) =>
            (if i = num_subcuts M s.duration - 1 then s.end_time
             else s.start_time + ((i : ℚ) + 1) * (s.duration / (num_subcuts M s.duration : ℚ))) -
              (s.start_time + (i : ℚ) * (s.duration / (num_subcuts M s.duration : ℚ))) := rfl
      rw [hfun,
        telescoping_subcut_sum s.start_time s.end_time
          (s.duration / (num_subcuts M s.duration : ℚ)) (num_subcuts M s.duration) hn,
        hdur]
    · obtain ⟨m, hm⟩ : ∃ m, num_subcuts M s.duration = m + 1 := ⟨_, (Nat.succ_pred_eq_of_pos hn).symm⟩
      rw [List.head?_map, hm, List.range_succ_eq_map]
      simp
    · obtain ⟨m, hm⟩ : ∃ m, num_subcuts M s.duration = m + 1 := ⟨_, (Nat.succ_pred_eq_of_pos hn).symm⟩
      rw [List.getLast?_map, hm]
      rw [show List.range (m + 1) = List.range m ++ [m] from List.range_succ m]
      rw [List.getLast?_concat]
      simp
    · intro j hj
      simp only [List.length_map, List.length_range] at hj
      refine ⟨?_, ?_, ?_, ?_, ?_⟩ <;>
        simp [List.getElem_map, List.getElem_range]
  · intro h
    exact splitScene_of_le h

/-- Concrete scene used to witness `splitScene_spec`: a 5-second aligned
scene split with `max_scene_duration = 2`. -/
def sampleSceneC1 : Scene :=
  { start_time := 0, end_time := 5, duration := 5, text := "t",
    segment_index := some 3, is_subcut := false, subcut_index := 0, total_subcuts := 1 }

theorem splitScene_spec_witness :
    (0 : ℚ) < 2 ∧
    sampleSceneC1.duration = sampleSceneC1.end_time - sampleSceneC1.start_time ∧
    ((2 < sampleSceneC1.duration →
      (splitScene 2 sampleSceneC1).length = num_subcuts 2 sampleSceneC1.duration ∧
      ((splitScene 2 sampleSceneC1).map Scene.duration).sum = sampleSceneC1.duration ∧
      (splitScene 2 sampleSceneC1).head?.map Scene.start_time = some sampleSceneC1.start_time ∧
      (splitScene 2 sampleSceneC1).getLast?.map Scene.end_time = some sampleSceneC1.end_time ∧
      (∀ j, (hj : j < (splitScene 2 sampleSceneC1).length) →
        (splitScene 2 sampleSceneC1)[j].segment_index = sampleSceneC1.segment_index ∧
        (splitScene 2 sampleSceneC1)[j].text = sampleSceneC1.text ∧
        (splitScene 2 sampleSceneC1)[j].is_subcut = true ∧
        (splitScene 2 sampleSceneC1)[j].subcut_index = j ∧
        (splitScene 2 sampleSceneC1)[j].total_subcuts = num_subcuts 2 sampleSceneC1.duration)) ∧
    (sampleSceneC1.duration ≤ 2 →
      splitScene 2 sampleSceneC1 = [{ sampleSceneC1 with is_subcut := false }])) :=
  ⟨by norm_num, by norm_num [sampleSceneC1],
    splitScene_spec sampleSceneC1 2 (by norm_num) (by norm_num [sampleSceneC1])⟩

/-! ## Properties of `tiles` -/

lemma tiles_sum : ∀ {l : List Scene} {a b : ℚ}, tiles a l b →
    (l.map Scene.duration).sum = b - a
  | [], a, b, h => by simp [tiles] at h ⊢; rw [h]; ring
  | s :: rest, a, b, h => by
    obtain ⟨ha, hd, ht⟩ := h
    have := tiles_sum ht
    simp only [List.map_cons, List.sum_cons, this, hd, ha]
    ring

lemma tiles_chain : ∀ {l : List Scene} {a b : ℚ}, tiles a l b →
    l.Chain' (fun u v => u.end_time = v.start_time)
  | [], _, _, _ => List.chain'_nil
  | s :: rest, a, b, h => by
    obtain ⟨_, _, ht⟩ := h
    rw [List.chain'_cons']
    refine ⟨?_, tiles_chain ht⟩
    intro y hy
    cases rest with
    | nil => simp at hy
    | cons r rest' =>
      simp at hy
      rw [← hy]
      exact ht.1.symm

lemma tiles_head {l : List Scene} {a b : ℚ} (h : tiles a l b) (hne : l ≠ []) :
    l.head?.map Scene.start_time = some a := by
  cases l with
  | nil => exact absurd rfl hne
  | cons s rest => simp [h.1]

lemma tiles_getLast : ∀ {l : List Scene} {a b : ℚ}, tiles a l b → l ≠ [] →
    l.getLast?.map Scene.end_time = some b
  | [], _, _, _, hne => absurd rfl hne
  | [s], a, b, h, _ => by
    obtain ⟨_, _, ht⟩ := h
    simp [tiles] at ht
    simp [ht]
  | s :: r :: rest, a, b, h, _ => by
    have := tiles_getLast h.2.2 (List.cons_ne_nil r rest)
    simpa using this

lemma tiles_append : ∀ {l l' : List Scene} {a c b : ℚ},
    tiles a l c → tiles c l' b → tiles a (l ++ l') b
  | [], l', a, c, b, h, h' => by simp [tiles] at h; rwa [List.nil_append, h]
  | s :: rest, l', a, c, b, h, h' =>
    ⟨h.1, h.2.1, tiles_append h.2.2 h'⟩

lemma tiles_flatMap {f : Scene → List Scene}
    (hf : ∀ s : Scene, s.duration = s.end_time - s.start_time →
      tiles s.start_time (f s) s.end_time) :
    ∀ {l : List Scene} {a b : ℚ}, tiles a l b → tiles a (l.flatMap f) b
  | [], a, b, h => by simpa [tiles, List.flatMap] using h
  | s :: rest, a, b, h => by
    obtain ⟨ha, hd, ht⟩ := h
    have h1 : tiles a (f s) s.end_time := by rw [← ha]; exact hf s hd
    have h2 : tiles s.end_time (rest.flatMap f) b := tiles_flatMap hf ht
    simpa using tiles_append h1 h2

/-! ## The splitter preserves the partition -/

lemma tiles_subcut_aux (s : Scene) (M : ℚ) :
    ∀ (m k : ℕ), k + (m + 1) = num_subcuts M s.duration →
      tiles (s.start_time + (k : ℚ) * (s.duration / (num_subcuts M s.duration : ℚ)))
        ((List.range' k (m + 1)).map (fun (i : ℕ) =>
          ({ start_time := s.start_time + (i : ℚ) * (s.duration / (num_subcuts M s.duration : ℚ))
             end_time :=
               if i = num_subcuts M s.duration - 1 then s.end_time
               else s.start_time + ((i : ℚ) + 1) * (s.duration / (num_subcuts M s.duration : ℚ))
             duration :=
               (if i = num_subcuts M s.duration - 1 then s.end_time
                else s.start_time + ((i : ℚ) + 1) * (s.duration / (num_subcuts M s.duration : ℚ))) -
                 (s.start_time + (i : ℚ) * (s.duration / (num_subcuts M s.duration : ℚ)))
             text := s.text
             segment_index := s.segment_index
             is_subcut := true
             subcut_index := i
             total_subcuts := num_subcuts M s.duration } : Scene)))
        s.end_time := by
  intro m
  induction m with
  | zero =>
    intro k hk
    rw [List.range'_one, List.map_singleton]
    have hlast : k = num_subcuts M s.duration - 1 := by omega
    refine ⟨rfl, rfl, ?_⟩
    show tiles (if k = num_subcuts M s.duration - 1 then s.end_time
      else s.start_time + ((k : ℚ) + 1) * (s.duration / (num_subcuts M s.duration : ℚ))) [] s.end_time
    rw [if_pos hlast]
    rfl
  | succ m ih =>
    intro k hk
    rw [List.range'_succ, List.map_cons]
    have hmid : ¬ k = num_subcuts M s.duration - 1 := by omega
    refine ⟨rfl, rfl, ?_⟩
    show tiles (if k = num_subcuts M s.duration - 1 then s.end_time
      else s.start_time + ((k : ℚ) + 1) * (s.duration / (num_subcuts M s.duration : ℚ))) _ s.end_time
    rw [if_neg hmid]
    have := ih (k + 1) (by omega)
    have hcast : ((k + 1 : ℕ) : ℚ) = (k : ℚ) + 1 := by push_cast; ring
    rw [hcast] at this
    exact this

lemma tiles_splitScene {M : ℚ} (hM : 0 < M) (s : Scene)
    (hdur : s.duration = s.end_time - s.start_time) :
    tiles s.start_time (splitScene M s) s.end_time := by
  by_cases h : M < s.duration
  · rw [splitScene_of_lt h]
    have hn : 1 ≤ num_subcuts M s.duration := num_subcuts_pos hM h
    obtain ⟨m, hm⟩ : ∃ m, num_subcuts M s.duration = m + 1 :=
      ⟨_, (Nat.succ_pred_eq_of_pos hn).symm⟩
    have := tiles_subcut_aux s M m 0 (by omega)
    rw [← hm] at this
    rw [List.range_eq_range']
    simpa using this
  · rw [splitScene_of_le (not_lt.mp h)]
    exact ⟨rfl, hdur, rfl⟩

/-! ## C7: fixed-interval fallback -/

lemma fixed_go_stop {total fixed current : ℚ} (h : total ≤ current) (n idx : ℕ) :
    fixed_go total fixed n current idx = [] := by
  cases n with
  | zero => rfl
  | succ n => simp [fixed_go, not_lt.mpr h]

lemma fixed_go_spec (total fixed : ℚ) (hf : 0 < fixed) :
    ∀ (n : ℕ) (current : ℚ) (idx : ℕ), current < total → total ≤ current + n * fixed →
      tiles current (fixed_go total fixed n current idx) total ∧
      (fixed_go total fixed n current idx).length = (⌈(total - current) / fixed⌉).toNat ∧
      ∀ j, (hj : j + 1 < (fixed_go total fixed n current idx).length) →
        (fixed_go total fixed n current idx)[j].duration = fixed := by
  intro n
  induction n with
  | zero =>
    intro current idx h1 h2
    exfalso
    push_cast at h2
    linarith
  | succ n ih =>
    intro current idx h1 h2
    rw [show fixed_go total fixed (n + 1) current idx =
      (if current < total then
        { start_time := current
          end_time := min (current + fixed) total
          duration := min (current + fixed) total - current
          text := "Scene " ++ toString idx } ::
          fixed_go total fixed n (min (current + fixed) total) (idx + 1)
      else []) from rfl, if_pos h1]
    by_cases hcase : total ≤ current + fixed
    · rw [min_eq_right hcase, fixed_go_stop le_rfl]
      have hc1 : (0 : ℚ) < (total - current) / fixed := div_pos (by linarith) hf
      have hc2 : (total - current) / fixed ≤ 1 := by
        rw [div_le_one hf]; linarith
      have hceil : ⌈(total - current) / fixed⌉ = 1 := by
        rw [Int.ceil_eq_iff]
        constructor
        · push_cast; linarith
        · push_cast; linarith
      refine ⟨⟨rfl, rfl, rfl⟩, ?_, ?_⟩
      · simp [hceil]
      · intro j hj
        simp at hj
    · push_neg at hcase
      have hmin : min (current + fixed) total = current + fixed := min_eq_left (le_of_lt hcase)
      rw [hmin]
      have h2' : total ≤ current + fixed + (n : ℚ) * fixed := by
        push_cast at h2
        linarith
      obtain ⟨ht, hl, hd⟩ := ih (current + fixed) (idx + 1) hcase h2'
      have hpos : (0 : ℚ) < (total - (current + fixed)) / fixed := div_pos (by linarith) hf
      have hceil_nonneg : (0 : ℤ) ≤ ⌈(total - (current + fixed)) / fixed⌉ :=
        Int.ceil_nonneg (le_of_lt hpos)
      have hsplit : (total - current) / fixed = (total - (current + fixed)) / fixed + 1 := by
        field_simp
        ring
      refine ⟨⟨rfl, rfl, ht⟩, ?_, ?_⟩
      · simp only [List.length_cons, hl]
        rw [hsplit, Int.ceil_add_one]
        omega
      · intro j hj
        cases j with
        | zero =>
          show current + fixed - current = fixed
          ring
        | succ j =>
          simp only [List.length_cons] at hj
          have hj' : j + 1 < (fixed_go total fixed n (current + fixed) (idx + 1)).length := by
            omega
          have := hd j hj'
          simpa using this

/-- C7: for positive `total_duration` and `fixed_duration`,
`create_fixed_duration_scenes` returns exactly
`⌈total_duration / fixed_duration⌉` scenes that tile
`[0, total_duration]` contiguously in order, every scene having duration
`fixed_duration` except possibly the last, whose `end_time` is
`total_duration`. -/
theorem create_fixed_duration_scenes_spec (total_duration fixed_duration : ℚ)
    (htot : 0 < total_duration) (hfix : 0 < fixed_duration) :
    tiles 0 (create_fixed_duration_scenes total_duration fixed_duration) total_duration ∧
    (create_fixed_duration_scenes total_duration fixed_duration).length =
      (⌈total_duration / fixed_duration⌉).toNat ∧
    (∀ j, (hj : j + 1 < (create_fixed_duration_scenes total_duration fixed_duration).length) →
      (create_fixed_duration_scenes total_duration fixed_duration)[j].duration =
        fixed_duration) ∧
    (create_fixed_duration_scenes total_duration fixed_duration).head?.map Scene.start_time =
      some 0 ∧
    (create_fixed_duration_scenes total_duration fixed_duration).getLast?.map Scene.end_time =
      some total_duration := by
  have hceil_pos : (0 : ℤ) < ⌈total_duration / fixed_duration⌉ :=
    Int.ceil_pos.mpr (div_pos htot hfix)
  have hcast : ((num_subcuts fixed_duration total_duration : ℕ) : ℚ) =
      ((⌈total_duration / fixed_duration⌉ : ℤ) : ℚ) := by
    unfold num_subcuts
    have h := Int.toNat_of_nonneg (le_of_lt hceil_pos)
    exact_mod_cast congrArg (fun (z : ℤ) => (z : ℚ)) h
  have henough : total_duration ≤
      0 + (num_subcuts fixed_duration total_duration : ℚ) * fixed_duration := by
    rw [hcast, zero_add]
    have hle := Int.le_ceil (total_duration / fixed_duration)
    have := (div_le_iff₀ hfix).mp (le_trans hle (le_refl _))
    linarith [this]
  obtain ⟨ht, hl, hd⟩ :=
    fixed_go_spec total_duration fixed_duration hfix
      (num_subcuts fixed_duration total_duration) 0 1 htot henough
  have hlen : (create_fixed_duration_scenes total_duration fixed_duration).length =
      (⌈total_duration / fixed_duration⌉).toNat := by
    unfold create_fixed_duration_scenes
    rw [hl, sub_zero]
  have hne : create_fixed_duration_scenes total_duration fixed_duration ≠ [] := by
    intro hempty
    rw [hempty] at hlen
    simp at hlen
    omega
  exact ⟨ht, hlen, hd, tiles_head ht hne, tiles_getLast ht hne⟩

theorem create_fixed_duration_scenes_spec_witness :
    (0 : ℚ) < 5 ∧ (0 : ℚ) < 2 ∧
    (tiles 0 (create_fixed_duration_scenes 5 2) 5 ∧
      (create_fixed_duration_scenes 5 2).length = (⌈(5 : ℚ) / 2⌉).toNat ∧
      (∀ j, (hj : j + 1 < (create_fixed_duration_scenes 5 2).length) →
        (create_fixed_duration_scenes 5 2)[j].duration = 2) ∧
      (create_fixed_duration_scenes 5 2).head?.map Scene.start_time = some 0 ∧
      (create_fixed_duration_scenes 5 2).getLast?.map Scene.end_time = some 5) :=
  ⟨by norm_num, by norm_num, create_fixed_duration_scenes_spec 5 2 (by norm_num) (by norm_num)⟩

/-! ## C2: exact behaviour of the matching loop on a fully matching
timing block -/

lemma matchLoop_stop {ws : List String} {m : ℕ} (h : ¬ m < ws.length)
    (ts : List WordTiming) (ss se : ℚ) :
    matchLoop ws ts m ss se = (ts, m, ss, se) := by
  cases ts with
  | nil => rfl
  | cons t rest => simp [matchLoop, h]

lemma matchLoop_exact (ws : List String) :
    ∀ (ts1 ts2 : List WordTiming) (m : ℕ) (ss se : ℚ),
      m ≤ ws.length →
      (∀ t ∈ ts1, normalizeWords t.word = [timingToken t]) →
      ts1.map timingToken = ws.drop m →
      matchLoop ws (ts1 ++ ts2) m ss se =
        (ts2, ws.length,
          (if m = 0 then (ts1.head?.map WordTiming.start).getD ss else ss),
          (ts1.getLast?.map WordTiming.stop).getD se) := by
  intro ts1
  induction ts1 with
  | nil =>
    intro ts2 m ss se hm _ hmap
    have hdrop : ws.drop m = [] := hmap.symm
    have hlen : ws.length ≤ m := by
      have := List.drop_eq_nil_iff.mp hdrop
      omega
    have hm' : m = ws.length := le_antisymm hm hlen
    rw [List.nil_append, matchLoop_stop (by omega)]
    simp [hm']
  | cons t ts1' ih =>
    intro ts2 m ss se hm h1 hmap
    have htok : normalizeWords t.word = [timingToken t] := h1 t (List.mem_cons_self t ts1')
    have hdrop : ws.drop m = timingToken t :: ts1'.map timingToken := by
      rw [← hmap]; rfl
    have hmlt : m < ws.length := by
      by_contra hc
      rw [List.drop_eq_nil_of_le (by omega)] at hdrop
      exact absurd hdrop (by simp)
    have hget : ws[m]? = some (timingToken t) := by
      have h0 : (ws.drop m)[0]? = some (timingToken t) := by rw [hdrop]; simp
      rw [List.getElem?_drop] at h0
      simpa using h0
    have hstep : matchLoop ws ((t :: ts1') ++ ts2) m ss se =
        matchLoop ws (ts1' ++ ts2) (m + 1) (if m = 0 then t.start else ss) t.stop := by
      show matchLoop ws (t :: (ts1' ++ ts2)) m ss se = _
      simp only [matchLoop]
      rw [if_pos hmlt, htok]
      simp [hget]
    rw [hstep]
    have hmap' : ts1'.map timingToken = ws.drop (m + 1) := by
      rw [← List.tail_drop, hdrop]
      rfl
    have := ih ts2 (m + 1) (if m = 0 then t.start else ss) t.stop
      (by omega) (fun u hu => h1 u (List.mem_cons_of_mem t hu)) hmap'
    rw [this]
    have hs : (if m + 1 = 0 then
        (ts1'.head?.map WordTiming.start).getD (if m = 0 then t.start else ss)
        else (if m = 0 then t.start else ss)) =
        (if m = 0 then ((t :: ts1').head?.map WordTiming.start).getD ss else ss) := by
      rw [if_neg (Nat.succ_ne_zero m)]
      by_cases hm0 : m = 0 <;> simp [hm0]
    have he : (ts1'.getLast?.map WordTiming.stop).getD t.stop =
        ((t :: ts1').getLast?.map WordTiming.stop).getD se := by
      cases ts1' with
      | nil => rfl
      | cons u us =>
        rw [List.getLast?_cons_cons]
        obtain ⟨y, hy⟩ := Option.isSome_iff_exists.mp
          (List.getLast?_isSome.mpr (List.cons_ne_nil u us))
        simp [hy]
    rw [hs, he]

/-- On input whose timing tokens are exactly the concatenation of the
segments' normalized words, STEP 1 of `create_semantic_scenes` matches
every segment and the resulting base scenes tile the span of the
(contiguous) timings. -/
lemma buildBaseScenes_exact :
    ∀ (segs : List String) (ts : List WordTiming) (idx : ℕ) (a b : ℚ),
      (∀ t ∈ ts, normalizeWords t.word = [timingToken t]) →
      segs.flatMap normalizeWords = ts.map timingToken →
      (∀ s ∈ segs, normalizeWords s ≠ []) →
      ts.Chain' (fun u v => u.stop = v.start) →
      (ts = [] → a = b) →
      (ts ≠ [] → ts.head?.map WordTiming.start = some a ∧
        ts.getLast?.map WordTiming.stop = some b) →
      tiles a (buildBaseScenes segs ts idx) b ∧
        (buildBaseScenes segs ts idx).length = segs.length := by
  intro segs
  induction segs with
  | nil =>
    intro ts idx a b _ h2 _ _ h5 _
    have hts : ts = [] := by
      have := h2.symm
      simp only [List.flatMap_nil] at this
      exact List.map_eq_nil_iff.mp this
    subst hts
    exact ⟨h5 rfl, rfl⟩
  | cons seg segs' ih =>
    intro ts idx a b h1 h2 h3 h4 h5 h6
    have hws : normalizeWords seg ≠ [] := h3 seg (List.mem_cons_self seg segs')
    rw [List.flatMap_cons] at h2
    have hlen : (normalizeWords seg).length ≤ ts.length := by
      have := congrArg List.length h2
      simp only [List.length_append, List.length_map] at this
      omega
    have hsplit := List.take_append_drop (normalizeWords seg).length ts
    set ts1 := ts.take (normalizeWords seg).length with hts1def
    set ts2 := ts.drop (normalizeWords seg).length with hts2def
    have hts1map : ts1.map timingToken = normalizeWords seg := by
      rw [hts1def, List.map_take, ← h2, List.take_left]
    have hts1len : ts1.length = (normalizeWords seg).length := by
      rw [hts1def, List.length_take, min_eq_left hlen]
    have hts1ne : ts1 ≠ [] := by
      intro hc
      rw [hc] at hts1len
      simp at hts1len
      exact hws (List.length_eq_zero.mp hts1len.symm)
    have hts2map : segs'.flatMap normalizeWords = ts2.map timingToken := by
      have hm : ts.map timingToken = ts1.map timingToken ++ ts2.map timingToken := by
        rw [← List.map_append, hsplit]
      rw [hm, hts1map] at h2
      exact List.append_cancel_left h2
    obtain ⟨t0, l1, hts1eq⟩ := List.exists_cons_of_ne_nil hts1ne
    obtain ⟨tl, htl⟩ := Option.isSome_iff_exists.mp (List.getLast?_isSome.mpr hts1ne)
    have htsne : ts ≠ [] := by
      intro hc
      rw [hc] at hsplit
      exact hts1ne (List.append_eq_nil.mp hsplit |>.1)
    obtain ⟨hhead, hlast⟩ := h6 htsne
    -- the head of ts is the head of ts1
    have hheadeq : ts.head? = some t0 := by
      rw [← hsplit, hts1eq]
      rfl
    have ha : a = t0.start := by
      rw [hheadeq] at hhead
      simpa using hhead.symm
    -- chain split across the ts1/ts2 boundary
    have hchain : (ts1 ++ ts2).Chain' (fun u v => u.stop = v.start) := by
      rw [hsplit]; exact h4
    obtain ⟨hc1, hc2, hcbd⟩ := List.chain'_append.mp hchain
    -- unfold one step of buildBaseScenes
    have hmatch := matchLoop_exact (normalizeWords seg) ts1 ts2 0 0 0
      (Nat.zero_le _) (fun t ht => h1 t (by rw [← hsplit]; exact List.mem_append_left _ ht))
      (by rw [hts1map, List.drop_zero])
    have hstep : buildBaseScenes (seg :: segs') ts idx =
        { start_time := t0.start
          end_time := tl.stop
          duration := tl.stop - t0.start
          text := seg
          segment_index := some idx } :: buildBaseScenes segs' ts2 (idx + 1) := by
      show (if normalizeWords seg = [] then buildBaseScenes segs' ts (idx + 1)
        else
          if (matchLoop (normalizeWords seg) ts 0 0 0).2.1 = (normalizeWords seg).length then
            { start_time := (matchLoop (normalizeWords seg) ts 0 0 0).2.2.1
              end_time := (matchLoop (normalizeWords seg) ts 0 0 0).2.2.2
              duration := (matchLoop (normalizeWords seg) ts 0 0 0).2.2.2 -
                (matchLoop (normalizeWords seg) ts 0 0 0).2.2.1
              text := seg
              segment_index := some idx } ::
              buildBaseScenes segs' (matchLoop (normalizeWords seg) ts 0 0 0).1 (idx + 1)
          else buildBaseScenes segs' (matchLoop (normalizeWords seg) ts 0 0 0).1 (idx + 1)) = _
      rw [if_neg hws, ← hsplit, hmatch]
      simp only [hts1eq, List.head?_cons, Option.map_some, Option.getD_some, if_pos rfl, htl]
      rw [← hts1eq, htl]
      simp
    rw [hstep]
    -- apply the induction hypothesis to the remaining segments
    have hihargs := ih ts2 (idx + 1) tl.stop b
      (fun t ht => h1 t (by rw [← hsplit]; exact List.mem_append_right _ ht))
      hts2map (fun s hs => h3 s (List.mem_cons_of_mem seg hs)) hc2
      (by
        intro hts2nil
        rw [hts2nil, List.append_nil] at hsplit
        rw [← hsplit] at hlast
        rw [htl] at hlast
        have := hlast.symm
        simpa using this.symm)
      (by
        intro hts2ne
        obtain ⟨y0, l2, hts2eq⟩ := List.exists_cons_of_ne_nil hts2ne
        constructor
        · have hbd := hcbd tl (by rw [htl]; rfl) y0 (by rw [hts2eq]; rfl)
          rw [hts2eq]
          simp [← hbd]
        · rw [← hsplit] at hlast
          rw [List.getLast?_append] at hlast
          obtain ⟨y1, hy1⟩ := Option.isSome_iff_exists.mp (List.getLast?_isSome.mpr hts2ne)
          rw [hy1] at hlast ⊢
          simpa using hlast)
    refine ⟨⟨ha.symm, rfl, hihargs.1⟩, ?_⟩
    simp [hihargs.2]

lemma splitScene_ne_nil {M : ℚ} (hM : 0 < M) (s : Scene) : splitScene M s ≠ [] := by
  by_cases h : M < s.duration
  · rw [splitScene_of_lt h]
    have hn := num_subcuts_pos hM h
    simp only [ne_eq, List.map_eq_nil_iff, List.range_eq_nil]
    omega
  · rw [splitScene_of_le (not_lt.mp h)]
    simp

/-- C2 (amended): when additionally the word timings are contiguous
(each timing's `end` equals the next timing's `start`), start at 0, end
at `total`, every timing word normalizes to exactly one token, and the
concatenation of the segments' normalized words is exactly the timing
token sequence (no extra hook/unmatched words), `create_semantic_scenes`
emits scenes that exactly partition `[0, total]`: durations sum to
`total`, consecutive scenes are contiguous, the first starts at 0, the
last ends at `total`. -/
theorem create_semantic_scenes_partition (segs : List String) (ts : List WordTiming)
    (M total : ℚ) (hM : 0 < M)
    (h1 : ∀ t ∈ ts, normalizeWords t.word = [timingToken t])
    (h2 : segs.flatMap normalizeWords = ts.map timingToken)
    (h3 : ∀ s ∈ segs, normalizeWords s ≠ [])
    (h4 : ts.Chain' (fun u v => u.stop = v.start))
    (hts : ts ≠ []) (hsegs : segs ≠ [])
    (hhead : ts.head?.map WordTiming.start = some 0)
    (hlast : ts.getLast?.map WordTiming.stop = some total) :
    ∃ scenes, create_semantic_scenes segs ts M = some scenes ∧
      (scenes.map Scene.duration).sum = total ∧
      scenes.Chain' (fun u v => u.end_time = v.start_time) ∧
      scenes.head?.map Scene.start_time = some 0 ∧
      scenes.getLast?.map Scene.end_time = some total := by
  obtain ⟨htiles, hlen⟩ := buildBaseScenes_exact segs ts 0 0 total h1 h2 h3 h4
    (fun hc => absurd hc hts) (fun _ => ⟨hhead, hlast⟩)
  have hbasene : buildBaseScenes segs ts 0 ≠ [] := by
    intro hc
    rw [hc] at hlen
    exact hsegs (List.length_eq_zero.mp hlen.symm)
  have hsome : create_semantic_scenes segs ts M =
      some ((buildBaseScenes segs ts 0).flatMap (splitScene M)) := by
    simp only [create_semantic_scenes]
    rw [if_neg hts, if_neg hsegs, if_neg hbasene]
  have hflat : tiles 0 ((buildBaseScenes segs ts 0).flatMap (splitScene M)) total :=
    tiles_flatMap (fun s hd => tiles_splitScene hM s hd) htiles
  have hflatne : (buildBaseScenes segs ts 0).flatMap (splitScene M) ≠ [] := by
    obtain ⟨s0, rest, hb⟩ := List.exists_cons_of_ne_nil hbasene
    rw [hb, List.flatMap_cons]
    intro hc
    exact splitScene_ne_nil hM s0 (List.append_eq_nil.mp hc).1
  refine ⟨_, hsome, ?_, tiles_chain hflat, tiles_head hflat hflatne,
    tiles_getLast hflat hflatne⟩
  rw [tiles_sum hflat, sub_zero]

theorem create_semantic_scenes_partition_witness :
    (0 : ℚ) < 5 ∧
    (∃ scenes, create_semantic_scenes ["hi there", "friend"]
        [{ word := "Hi", start := 0, stop := 1 }, { word := "there", start := 1, stop := 2 },
         { word := "friend!", start := 2, stop := 3 }] 5 = some scenes ∧
      (scenes.map Scene.duration).sum = 3 ∧
      scenes.Chain' (fun u v => u.end_time = v.start_time) ∧
      scenes.head?.map Scene.start_time = some 0 ∧
      scenes.getLast?.map Scene.end_time = some 3) :=
  ⟨by norm_num,
    create_semantic_scenes_partition ["hi there", "friend"]
      [{ word := "Hi", start := 0, stop := 1 }, { word := "there", start := 1, stop := 2 },
       { word := "friend!", start := 2, stop := 3 }] 5 3
      (by norm_num) (by with_unfolding_all decide) (by with_unfolding_all decide)
      (by with_unfolding_all decide)
      (List.chain'_cons.mpr ⟨rfl, List.chain'_cons.mpr ⟨rfl, List.chain'_singleton _⟩⟩)
      (by with_unfolding_all decide) (by with_unfolding_all decide)
      (by with_unfolding_all decide) (by with_unfolding_all decide)⟩

/-- C2 (counterexample to the claim as stated): the input below has
every segment fully matched, yet the returned scene list does not
partition `[0, total_audio_duration]`: with a single word spoken from
second 1 to second 2 (so the audio lasts at least 2 seconds), the only
scene spans `[1, 2]` — its durations sum to 1, not the audio duration,
and the first scene starts at 1, not 0. -/
theorem create_semantic_scenes_not_partition :
    create_semantic_scenes ["hello"] [{ word := "hello", start := 1, stop := 2 }] 3 =
      some [{ start_time := 1, end_time := 2, duration := 1, text := "hello",
              segment_index := some 0, is_subcut := false, subcut_index := 0,
              total_subcuts := 1 }] ∧
    ((create_semantic_scenes ["hello"] [{ word := "hello", start := 1, stop := 2 }] 3).map
      (fun l => (l.map Scene.duration).sum)) = some 1 ∧ (1 : ℚ) ≠ 2 ∧
    ((create_semantic_scenes ["hello"] [{ word := "hello", start := 1, stop := 2 }] 3).map
      (fun l => l.head?.map Scene.start_time)) = some (some 1) ∧ some (1 : ℚ) ≠ some 0 := by
  with_unfolding_all decide

/-! ## AssetResolver: category classification
(`video_downloader.py` lines 154-197) -/

/-- The five curated categories of `detect_category_from_query`. -/
inductive Category where
  | CARS | COMBAT | GYM | STOIC | LUXURY
  deriving DecidableEq, Repr

/-- Python's substring test `keyword in query`. -/
def str_contains (s pat : String) : Bool :=
  (List.range (s.toList.length + 1)).any fun i => pat.toList.isPrefixOf (s.toList.drop i)

def CARS_KEYWORDS : List String :=
  ["car", "drive", "speed", "supercar", "ferrari", "lamborghini",
   "porsche", "mclaren", "bugatti", "drift", "racing", "tunnel", "highway"]

def COMBAT_KEYWORDS : List String :=
  ["fight", "box", "punch", "combat", "mma", "kickbox", "spar",
   "heavy bag", "cage", "ring", "fighter"]

def GYM_KEYWORDS : List String :=
  ["gym", "train", "muscle", "calisthenics", "workout", "pullup",
   "pushup", "pull up", "push up", "bodyweight", "street workout"]

def STOIC_KEYWORDS : List String :=
  ["statue", "marble", "sculpture", "bust", "ancient", "rome", "roman",
   "greece", "greek", "philosophy", "stoic", "temple", "column", "ruins"]

def LUXURY_KEYWORDS : List String :=
  ["money", "rich", "yacht", "villa", "jet", "luxury", "wealth",
   "cash", "mansion", "penthouse", "private", "champagne"]

/-- `detect_category_from_query(query)`: lowercase the query, then test
the five keyword tables in source order (`any(keyword in query_lower
for keyword in [...])`), first hit wins, `None` when nothing matches. -/
def detect_category_from_query (query : String) : Option Category :=
  let query_lower := lowerStr query
  if CARS_KEYWORDS.any (fun k => str_contains query_lower k) then some Category.CARS
  else if COMBAT_KEYWORDS.any (fun k => str_contains query_lower k) then some Category.COMBAT
  else if GYM_KEYWORDS.any (fun k => str_contains query_lower k) then some Category.GYM
  else if STOIC_KEYWORDS.any (fun k => str_contains query_lower k) then some Category.STOIC
  else if LUXURY_KEYWORDS.any (fun k => str_contains query_lower k) then some Category.LUXURY
  else none

/-- C9: category classification is a pure, deterministic function of the
query text — two invocations on identical query strings return identical
results (the embedding reads nothing but its argument and the fixed
module-level keyword tables), and the result is always one of the five
categories or no category. -/
theorem detect_category_from_query_deterministic :
    (∀ q₁ q₂ : String, q₁ = q₂ →
      detect_category_from_query q₁ = detect_category_from_query q₂) ∧
    (∀ q : String, detect_category_from_query q = none ∨
      detect_category_from_query q = some Category.CARS ∨
      detect_category_from_query q = some Category.COMBAT ∨
      detect_category_from_query q = some Category.GYM ∨
      detect_category_from_query q = some Category.STOIC ∨
      detect_category_from_query q = some Category.LUXURY) := by
  constructor
  · intro q₁ q₂ h
    rw [h]
  · intro q
    cases h : detect_category_from_query q with
    | none => exact Or.inl rfl
    | some c => cases c <;> simp

theorem detect_category_from_query_deterministic_witness :
    detect_category_from_query "supercar night drive" =
      detect_category_from_query "supercar night drive" :=
  detect_category_from_query_deterministic.1 "supercar night drive" "supercar night drive" rfl

/-! ## AssetResolver: query cleaning and the weak-term filter
(`video_downloader.py` lines 45-81, 616-651 and 966-991) -/

def WEAK_VISUAL_TERMS : List String :=
  ["ocean", "sea", "water", "river", "lake", "beach", "sand",
   "forest", "tree", "wood", "nature", "flower", "garden",
   "grass", "field", "mountain", "hill", "cliff",
   "sky", "cloud", "sun", "sunrise", "sunset",
   "sitting", "standing", "thinking", "walking alone", "looking",
   "depressed", "sad", "lonely", "chair", "bench", "bed", "sleeping",
   "room", "wall", "window", "reading", "writing", "paper"]

def STOIC_EXCEPTIONS : List String :=
  ["statue", "marble", "sculpture", "bust",
   "chess", "king", "queen", "rook",
   "lion", "wolf", "eagle", "tiger", "panther",
   "hourglass", "skull"]

def HIGH_ACTION_FALLBACKS : List String :=
  ["shadow boxing night street silhouette",
   "muay thai training dark smoke",
   "calisthenics muscle up night park",
   "supercar night city drive neon",
   "drifting car night smoke tires",
   "mma fighter cage training dark",
   "boxer heavy bag workout sweat",
   "street workout pull ups night",
   "lamborghini tunnel run night fast",
   "kickboxing sparring dark cinematic"]

/-- The word list removed by `clean_and_map_query` ("technical fluff"). -/
def REMOVE_WORDS : List String :=
  ["4k", "8k", "ultra hd", "hd", "60fps", "detailed", "realistic",
   "photorealistic", "shot", "angle", "view", "camera", "lens"]

/-- The brand/jargon replacement table of `clean_and_map_query`
(Python dicts iterate in insertion order). -/
def QUERY_REPLACEMENTS : List (String × String) :=
  [("ferrari", "supercar"), ("lamborghini", "supercar"),
   ("porsche", "sportscar"), ("mclaren", "supercar"),
   ("muay thai", "kickboxing"), ("mma", "mixed martial arts"),
   ("calisthenics", "street workout"), ("money", "money cash luxury"),
   ("jet", "private jet luxury"), ("chess", "chess dark")]

/-- `clean_and_map_query(query)`: lowercase, delete the technical
words, apply the replacement table (guarded by a substring test, as in
the source), collapse whitespace. -/
def clean_and_map_query (query : String) : String :=
  let q1 := lowerStr query
  let q2 := REMOVE_WORDS.foldl (fun q w => replaceStr q w "") q1
  let q3 := QUERY_REPLACEMENTS.foldl
    (fun q kv => if str_contains q kv.1 then replaceStr q kv.1 kv.2 else q) q2
  joinWords (splitWs q3)

/-- A regex word character, `\w` as used by the `\b` boundaries in
`re.search(r'\b' + re.escape(term) + r'\b', query_lower)` (all filter
terms are ASCII and begin/end with letters). -/
def isWordChar (c : Char) : Bool := c.isAlphanum || c = '_'

/-- `term` occurs in `q` starting at position `i` with word boundaries
on both sides. -/
def whole_word_at (q t : List Char) (i : ℕ) : Bool :=
  t.isPrefixOf (q.drop i) &&
  (decide (i = 0) || !isWordChar (q.getD (i - 1) ' ')) &&
  (decide (q.length ≤ i + t.length) || !isWordChar (q.getD (i + t.length) ' '))

/-- `re.search(r'\b' + re.escape(term) + r'\b', q)` is a hit. -/
def contains_whole_word (q t : String) : Bool :=
  (List.range (q.toList.length + 1)).any (whole_word_at q.toList t.toList)

/-- Spec-side reading of the same test: the term occurs somewhere in
the query as a whole word. -/
def ContainsWholeWord (q t : String) : Prop :=
  ∃ i, i < q.toList.length + 1 ∧ whole_word_at q.toList t.toList i = true

instance (q t : String) : Decidable (ContainsWholeWord q t) := by
  unfold ContainsWholeWord
  infer_instance

lemma contains_whole_word_iff (q t : String) :
    contains_whole_word q t = true ↔ ContainsWholeWord q t := by
  unfold contains_whole_word ContainsWholeWord
  rw [List.any_eq_true]
  constructor
  · rintro ⟨i, hi, hw⟩
    exact ⟨i, List.mem_range.mp hi, hw⟩
  · rintro ⟨i, hi, hw⟩
    exact ⟨i, List.mem_range.mpr hi, hw⟩

/-- The weak-query interception of the automated search tier
(`search_videos`, lines 966-991): after cleaning, the query is checked
for whole-word weak terms and whole-word stoic exception terms; a weak
query without an exception is replaced by a random entry of
`HIGH_ACTION_FALLBACKS` (`random.choice` modelled by an oracle index
`r`, reduced modulo the list length). -/
def apply_weak_filter (visual_query : String) (r : ℕ) : String :=
  let query_lower := lowerStr visual_query
  let has_weak_term := WEAK_VISUAL_TERMS.any fun w => contains_whole_word query_lower w
  let has_stoic_exception := STOIC_EXCEPTIONS.any fun w => contains_whole_word query_lower w
  if has_weak_term && !has_stoic_exception then
    HIGH_ACTION_FALLBACKS.getD (r % HIGH_ACTION_FALLBACKS.length) ""
  else visual_query

/-- C4: in the automated search tier the cleaned query is replaced by a
fallback query if and only if it contains a whole-word weak/banned term
from `WEAK_VISUAL_TERMS` and no whole-word term from
`STOIC_EXCEPTIONS`; otherwise the cleaned query is used unchanged. -/
lemma apply_weak_filter_eq (q : String) (r : ℕ) :
    apply_weak_filter q r =
      if ((WEAK_VISUAL_TERMS.any fun w => contains_whole_word (lowerStr q) w) &&
          !(STOIC_EXCEPTIONS.any fun w => contains_whole_word (lowerStr q) w)) = true
      then HIGH_ACTION_FALLBACKS.getD (r % HIGH_ACTION_FALLBACKS.length) ""
      else q := rfl

theorem apply_weak_filter_spec (raw : String) (r : ℕ) :
    ((∃ t ∈ WEAK_VISUAL_TERMS,
        ContainsWholeWord (lowerStr (clean_and_map_query raw)) t) ∧
      ¬ (∃ t ∈ STOIC_EXCEPTIONS,
        ContainsWholeWord (lowerStr (clean_and_map_query raw)) t) →
      apply_weak_filter (clean_and_map_query raw) r =
        HIGH_ACTION_FALLBACKS.getD (r % HIGH_ACTION_FALLBACKS.length) "") ∧
    (¬ ((∃ t ∈ WEAK_VISUAL_TERMS,
        ContainsWholeWord (lowerStr (clean_and_map_query raw)) t) ∧
      ¬ (∃ t ∈ STOIC_EXCEPTIONS,
        ContainsWholeWord (lowerStr (clean_and_map_query raw)) t)) →
      apply_weak_filter (clean_and_map_query raw) r = clean_and_map_query raw) := by
  have hwiff : (WEAK_VISUAL_TERMS.any fun w =>
      contains_whole_word (lowerStr (clean_and_map_query raw)) w) = true ↔
      (∃ t ∈ WEAK_VISUAL_TERMS,
        ContainsWholeWord (lowerStr (clean_and_map_query raw)) t) := by
    rw [List.any_eq_true]
    exact exists_congr fun t => and_congr_right fun _ => contains_whole_word_iff _ _
  have hsiff : (STOIC_EXCEPTIONS.any fun w =>
      contains_whole_word (lowerStr (clean_and_map_query raw)) w) = true ↔
      (∃ t ∈ STOIC_EXCEPTIONS,
        ContainsWholeWord (lowerStr (clean_and_map_query raw)) t) := by
    rw [List.any_eq_true]
    exact exists_congr fun t => and_congr_right fun _ => contains_whole_word_iff _ _
  constructor
  · rintro ⟨hw, hs⟩
    have hb1 := hwiff.mpr hw
    have hb2 : (STOIC_EXCEPTIONS.any fun w =>
        contains_whole_word (lowerStr (clean_and_map_query raw)) w) = false := by
      rw [← Bool.not_eq_true]
      intro hc
      exact hs (hsiff.mp hc)
    rw [apply_weak_filter_eq, hb1, hb2]
    simp
  · intro hn
    by_cases hb1 : (WEAK_VISUAL_TERMS.any fun w =>
        contains_whole_word (lowerStr (clean_and_map_query raw)) w) = true
    · have hs : ∃ t ∈ STOIC_EXCEPTIONS,
          ContainsWholeWord (lowerStr (clean_and_map_query raw)) t := by
        by_contra hc
        exact hn ⟨hwiff.mp hb1, hc⟩
      have hb2 := hsiff.mpr hs
      rw [apply_weak_filter_eq, hb1, hb2]
      simp
    · have hb1' : (WEAK_VISUAL_TERMS.any fun w =>
          contains_whole_word (lowerStr (clean_and_map_query raw)) w) = false :=
        Bool.not_eq_true _ |>.mp hb1
      rw [apply_weak_filter_eq, hb1']
      simp

theorem apply_weak_filter_spec_witness :
    (∃ t ∈ WEAK_VISUAL_TERMS,
      ContainsWholeWord (lowerStr (clean_and_map_query "ocean waves 4k")) t) ∧
    ¬ (∃ t ∈ STOIC_EXCEPTIONS,
      ContainsWholeWord (lowerStr (clean_and_map_query "ocean waves 4k")) t) ∧
    apply_weak_filter (clean_and_map_query "ocean waves 4k") 0 =
      "shadow boxing night street silhouette" := by
  refine ⟨by with_unfolding_all decide, by with_unfolding_all decide, ?_⟩
  have h := (apply_weak_filter_spec "ocean waves 4k" 0).1
    ⟨by with_unfolding_all decide, by with_unfolding_all decide⟩
  rw [h]
  with_unfolding_all decide

/-! ## ClipAssigner: per-scene error fallback
(`assign_clips_to_scenes`, `video_editor.py` lines 647-781, and the
fatal guard in `stitch_and_edit_video`, lines 921-922) -/

/-- A positioned clip appended to `positioned_clips`: `origin`
identifies the underlying successfully-loaded subclip object (the
binding result), `duration` the final `set_duration(duration)` value. -/
structure Clip where
  origin : ℕ
  duration : ℚ
  deriving DecidableEq, Repr

/-- The `for i, scene in enumerate(scenes)` loop of
`assign_clips_to_scenes`.  The whole `try` body (loading
`video_paths[...]`, windowing, looping, effects) is abstracted by the
oracle `bind : scene index → scene → Option origin`: `some o` means the
body built a positioned clip (identified by `o`) for this scene —
which is then appended with the scene's duration, matching the final
`subclip.set_duration(duration)` — and `none` means it raised.  On an
exception the loop appends `positioned_clips[-1].set_duration(duration)`
when the list is nonempty, else just continues. -/
def assign_clips_to_scenes (bind : ℕ → Scene → Option ℕ) :
    List Scene → ℕ → List Clip → List Clip
  | [], _, positioned_clips => positioned_clips
  | scene :: rest, i, positioned_clips =>
    match bind i scene with
    | some o =>
      assign_clips_to_scenes bind rest (i + 1)
        (positioned_clips ++ [{ origin := o, duration := scene.duration }])
    | none =>
      match positioned_clips.getLast? with
      | some prev =>
        assign_clips_to_scenes bind rest (i + 1)
          (positioned_clips ++ [{ prev with duration := scene.duration }])
      | none => assign_clips_to_scenes bind rest (i + 1) positioned_clips

/-- Spec-side rendering of the fallback policy of §4.5 of the
specification: each successfully bound scene contributes its own clip;
a failed scene reuses the origin of the immediately preceding
successfully-bound clip (re-timed to the failed scene's duration) when
one exists, and is dropped otherwise. -/
def assign_clips_spec (bind : ℕ → Scene → Option ℕ) :
    List Scene → ℕ → Option ℕ → List Clip
  | [], _, _ => []
  | scene :: rest, i, last_origin =>
    match bind i scene with
    | some o =>
      { origin := o, duration := scene.duration } :: assign_clips_spec bind rest (i + 1) (some o)
    | none =>
      match last_origin with
      | some o =>
        { origin := o, duration := scene.duration } ::
          assign_clips_spec bind rest (i + 1) (some o)
      | none => assign_clips_spec bind rest (i + 1) none

/-- `if not video_clips: raise Exception(...)` in
`stitch_and_edit_video`. -/
def stitch_raises (video_clips : List Clip) : Prop := video_clips = []

lemma assign_clips_cons (bind : ℕ → Scene → Option ℕ) (scene : Scene)
    (rest : List Scene) (i : ℕ) (acc : List Clip) :
    assign_clips_to_scenes bind (scene :: rest) i acc =
      match bind i scene with
      | some o =>
        assign_clips_to_scenes bind rest (i + 1) (acc ++ [⟨o, scene.duration⟩])
      | none =>
        match acc.getLast? with
        | some prev =>
          assign_clips_to_scenes bind rest (i + 1) (acc ++ [⟨prev.origin, scene.duration⟩])
        | none => assign_clips_to_scenes bind rest (i + 1) acc := rfl

lemma assign_clips_spec_cons (bind : ℕ → Scene → Option ℕ) (scene : Scene)
    (rest : List Scene) (i : ℕ) (last_origin : Option ℕ) :
    assign_clips_spec bind (scene :: rest) i last_origin =
      match bind i scene with
      | some o => ⟨o, scene.duration⟩ :: assign_clips_spec bind rest (i + 1) (some o)
      | none =>
        match last_origin with
        | some o => ⟨o, scene.duration⟩ :: assign_clips_spec bind rest (i + 1) (some o)
        | none => assign_clips_spec bind rest (i + 1) none := rfl

lemma assign_clips_append (bind : ℕ → Scene → Option ℕ) :
    ∀ (scenes : List Scene) (i : ℕ) (acc : List Clip),
      assign_clips_to_scenes bind scenes i acc =
        acc ++ assign_clips_spec bind scenes i (acc.getLast?.map Clip.origin) := by
  intro scenes
  induction scenes with
  | nil => intro i acc; simp [assign_clips_to_scenes, assign_clips_spec]
  | cons scene rest ih =>
    intro i acc
    rw [assign_clips_cons, assign_clips_spec_cons]
    cases hb : bind i scene with
    | some o =>
      dsimp only
      rw [ih, List.getLast?_concat, List.append_assoc]
      rfl
    | none =>
      cases hl : acc.getLast? with
      | some prev =>
        dsimp only
        rw [ih, List.getLast?_concat, List.append_assoc]
        rfl
      | none =>
        dsimp only
        rw [ih, hl]
        rfl

lemma assign_clips_spec_nil_iff (bind : ℕ → Scene → Option ℕ) :
    ∀ (scenes : List Scene) (i : ℕ),
      assign_clips_spec bind scenes i none = [] ↔
        ∀ j, (hj : j < scenes.length) → bind (i + j) scenes[j] = none := by
  intro scenes
  induction scenes with
  | nil => intro i; simp [assign_clips_spec]
  | cons scene rest ih =>
    intro i
    constructor
    · intro h j hj
      cases hb : bind i scene with
      | some o => simp [assign_clips_spec, hb] at h
      | none =>
        simp only [assign_clips_spec, hb] at h
        cases j with
        | zero => simpa using hb
        | succ j =>
          simp only [List.length_cons] at hj
          have := (ih (i + 1)).mp h j (by omega)
          rw [show i + (j + 1) = i + 1 + j by omega]
          simpa using this
    · intro h
      have hb : bind i scene = none := by
        have := h 0 (by simp)
        simpa using this
      simp only [assign_clips_spec, hb]
      rw [ih (i + 1)]
      intro j hj
      have := h (j + 1) (by simp; omega)
      rw [show i + 1 + j = i + (j + 1) by omega]
      simpa using this

/-- C6: (i) when binding a scene fails and at least one earlier scene
was bound, the assigner appends the immediately preceding positioned
clip re-timed to the failed scene's duration and continues; (ii) the
whole run refines the reuse-previous policy `assign_clips_spec`; and
(iii) the pipeline's fatal guard fires if and only if no scene at all
could be bound. -/
theorem assign_clips_fallback_spec (bind : ℕ → Scene → Option ℕ) (scenes : List Scene) :
    (∀ (scene : Scene) (rest : List Scene) (i : ℕ) (acc : List Clip) (prev : Clip),
      bind i scene = none → acc.getLast? = some prev →
      assign_clips_to_scenes bind (scene :: rest) i acc =
        assign_clips_to_scenes bind rest (i + 1)
          (acc ++ [{ prev with duration := scene.duration }])) ∧
    assign_clips_to_scenes bind scenes 0 [] = assign_clips_spec bind scenes 0 none ∧
    (stitch_raises (assign_clips_to_scenes bind scenes 0 []) ↔
      ∀ j, (hj : j < scenes.length) → bind j scenes[j] = none) := by
  refine ⟨?_, ?_, ?_⟩
  · intro scene rest i acc prev hb hl
    rw [assign_clips_cons, hb, hl]
  · have := assign_clips_append bind scenes 0 []
    simpa using this
  · unfold stitch_raises
    have heq := assign_clips_append bind scenes 0 []
    simp only [List.getLast?_nil, Option.map_none, List.nil_append] at heq
    rw [heq]
    have := assign_clips_spec_nil_iff bind scenes 0
    simpa using this

/-- Oracle used to witness `assign_clips_fallback_spec`: scene 0 binds
(to clip 5), every later scene fails. -/
def sampleBindC6 : ℕ → Scene → Option ℕ := fun i _ => if i = 0 then some 5 else none

def sampleScenesC6 : List Scene :=
  [{ start_time := 0, end_time := 2, duration := 2, text := "a", segment_index := some 0 },
   { start_time := 2, end_time := 5, duration := 3, text := "b", segment_index := some 1 }]

theorem assign_clips_fallback_spec_witness :
    (∀ (scene : Scene) (rest : List Scene) (i : ℕ) (acc : List Clip) (prev : Clip),
      sampleBindC6 i scene = none → acc.getLast? = some prev →
      assign_clips_to_scenes sampleBindC6 (scene :: rest) i acc =
        assign_clips_to_scenes sampleBindC6 rest (i + 1)
          (acc ++ [{ prev with duration := scene.duration }])) ∧
    assign_clips_to_scenes sampleBindC6 sampleScenesC6 0 [] =
      assign_clips_spec sampleBindC6 sampleScenesC6 0 none ∧
    (stitch_raises (assign_clips_to_scenes sampleBindC6 sampleScenesC6 0 []) ↔
      ∀ j, (hj : j < sampleScenesC6.length) → sampleBindC6 j sampleScenesC6[j] = none) :=
  assign_clips_fallback_spec sampleBindC6 sampleScenesC6

/-! ## ClipAssigner: sub-cut windowing, jump cut and looping
(`assign_clips_to_scenes`, `video_editor.py` lines 686-738) -/

/-- What the sub-cut branch builds from the loaded clip: either
`subclip(start_time, end_time)` or `concatenate([clip] * num_loops)`
followed by `subclip(0, duration)`. -/
inductive SubcutBinding where
  | extract (start_time end_time : ℚ)
  | loop (num_loops : ℕ) (duration : ℚ)
  deriving DecidableEq, Repr

/-- The window start used for a sub-cut scene: the segment's offset
cursor, jump-cut forward and clamped (`min`/`max`) when the window
would overrun the asset (`end_time > video_duration`). -/
def subcut_start (video_duration current_offset duration : ℚ) : ℚ :=
  if video_duration < current_offset + duration then
    max 0 (min (current_offset + 1) (video_duration - duration))
  else current_offset

/-- The sub-cut branch of `assign_clips_to_scenes` for one scene of
duration `duration` bound to an asset of playable length
`video_duration`: computes the (possibly jump-cut) window, updates the
segment's offset cursor to the window end, then either extracts the
window (`video_duration > duration and end_time <= video_duration`) or
loops the clip `ceil(duration / video_duration)` times and trims to
`duration`.  Returns the binding and the new offset cursor. -/
def subcut_bind (video_duration current_offset duration : ℚ) : SubcutBinding × ℚ :=
  let start_time := subcut_start video_duration current_offset duration
  let end_time := start_time + duration
  ((if duration < video_duration ∧ end_time ≤ video_duration then
      SubcutBinding.extract start_time end_time
    else
      SubcutBinding.loop (num_subcuts video_duration duration) duration),
   end_time)

lemma subcut_bind_eq (video_duration current_offset duration : ℚ) :
    subcut_bind video_duration current_offset duration =
      (if duration < video_duration ∧
          subcut_start video_duration current_offset duration + duration ≤ video_duration then
        SubcutBinding.extract (subcut_start video_duration current_offset duration)
          (subcut_start video_duration current_offset duration + duration)
      else SubcutBinding.loop (num_subcuts video_duration duration) duration,
      subcut_start video_duration current_offset duration + duration) := rfl

/-- C8: for a sub-cut scene of duration `d` on an asset of playable
length `L`: when `d < L` the extracted window `[start, start + d]`
always lies inside `[0, L]` (overruns are jump-cut and clamped into
range, never failed); when `d = L` the clip is looped once and trimmed
to exactly `d` (covering `[0, L]`); when `L < d` the asset is looped
`⌈d/L⌉` times — enough footage, since `d ≤ ⌈d/L⌉ * L` — and trimmed to
exactly `d`.  The binding is total: no asset length makes it fail. -/
theorem subcut_bind_safe (video_duration current_offset duration : ℚ)
    (hL : 0 < video_duration) (hoff : 0 ≤ current_offset) (hd : 0 < duration) :
    (duration < video_duration →
      (subcut_bind video_duration current_offset duration).1 =
        SubcutBinding.extract (subcut_start video_duration current_offset duration)
          (subcut_start video_duration current_offset duration + duration) ∧
      0 ≤ subcut_start video_duration current_offset duration ∧
      subcut_start video_duration current_offset duration + duration ≤ video_duration) ∧
    (duration = video_duration →
      (subcut_bind video_duration current_offset duration).1 =
        SubcutBinding.loop 1 duration) ∧
    (video_duration < duration →
      (subcut_bind video_duration current_offset duration).1 =
        SubcutBinding.loop (num_subcuts video_duration duration) duration ∧
      duration ≤ (num_subcuts video_duration duration : ℚ) * video_duration) := by
  refine ⟨?_, ?_, ?_⟩
  · intro hlt
    have hs0 : 0 ≤ subcut_start video_duration current_offset duration := by
      unfold subcut_start
      split
      · exact le_max_left 0 _
      · exact hoff
    have hse : subcut_start video_duration current_offset duration + duration ≤
        video_duration := by
      unfold subcut_start
      split
      · have h1 : max 0 (min (current_offset + 1) (video_duration - duration)) ≤
            video_duration - duration :=
          max_le (by linarith) (min_le_right _ _)
        linarith
      · linarith [not_lt.mp (by assumption : ¬ video_duration < current_offset + duration)]
    refine ⟨?_, hs0, hse⟩
    rw [subcut_bind_eq]
    dsimp only
    rw [if_pos ⟨hlt, hse⟩]
  · intro heq
    have hcond : ¬ (duration < video_duration ∧
        subcut_start video_duration current_offset duration + duration ≤ video_duration) := by
      rintro ⟨hc, _⟩
      rw [heq] at hc
      exact lt_irrefl _ hc
    have hone : num_subcuts video_duration duration = 1 := by
      unfold num_subcuts
      rw [heq, div_self (ne_of_gt hL)]
      simp
    rw [subcut_bind_eq]
    dsimp only
    rw [if_neg hcond, hone]
  · intro hlt
    have hcond : ¬ (duration < video_duration ∧
        subcut_start video_duration current_offset duration + duration ≤ video_duration) := by
      rintro ⟨hc, _⟩
      linarith
    constructor
    · rw [subcut_bind_eq]
      dsimp only
      rw [if_neg hcond]
    · have hpos : (0 : ℚ) < duration / video_duration := div_pos hd hL
      have hceil : (0 : ℤ) ≤ ⌈duration / video_duration⌉ := Int.ceil_nonneg (le_of_lt hpos)
      have hcast : ((num_subcuts video_duration duration : ℕ) : ℚ) =
          ((⌈duration / video_duration⌉ : ℤ) : ℚ) := by
        unfold num_subcuts
        exact_mod_cast congrArg (fun (z : ℤ) => (z : ℚ)) (Int.toNat_of_nonneg hceil)
      rw [hcast]
      have hle := Int.le_ceil (duration / video_duration)
      have := (div_le_iff₀ hL).mp hle
      linarith

theorem subcut_bind_safe_witness :
    (0 : ℚ) < 5 ∧ (0 : ℚ) ≤ 4 ∧ (0 : ℚ) < 2 ∧
    (((2 : ℚ) < 5 →
      (subcut_bind 5 4 2).1 = SubcutBinding.extract (subcut_start 5 4 2) (subcut_start 5 4 2 + 2) ∧
      0 ≤ subcut_start 5 4 2 ∧ subcut_start 5 4 2 + 2 ≤ 5) ∧
    ((2 : ℚ) = 5 → (subcut_bind 5 4 2).1 = SubcutBinding.loop 1 2) ∧
    ((5 : ℚ) < 2 →
      (subcut_bind 5 4 2).1 = SubcutBinding.loop (num_subcuts 5 2) 2 ∧
      (2 : ℚ) ≤ (num_subcuts 5 2 : ℚ) * 5)) :=
  ⟨by norm_num, by norm_num, by norm_num,
    subcut_bind_safe 5 4 2 (by norm_num) (by norm_num) (by norm_num)⟩

/-! ## ClipAssigner: per-segment offset cursor dynamics
(`assign_clips_to_scenes`, `video_editor.py` lines 667-728) -/

/-- `segment_index = scene['segment_index'] if 'segment_index' in scene
else i`: the key into `video_offsets`. -/
def scene_key (scene : Scene) (i : ℕ) : ℕ := scene.segment_index.getD i

/-- The update the successful binding of one scene applies to its
segment's entry of `video_offsets`: a sub-cut advances the cursor to
the end of the window just used (`video_offsets[segment_index] =
end_time`), a regular scene resets it
(`video_offsets[segment_index] = 0.0`). -/
def offset_step (video_duration current_offset : ℚ) (scene : Scene) : ℚ :=
  if scene.is_subcut then (subcut_bind video_duration current_offset scene.duration).2
  else 0

/-- The `video_offsets` map after the loop of `assign_clips_to_scenes`
has bound the given scenes (successfully), starting at scene index `i`;
`L` gives each segment's asset playable length. -/
def offsets_after (L : ℕ → ℚ) : List Scene → ℕ → (ℕ → ℚ) → (ℕ → ℚ)
  | [], _, video_offsets => video_offsets
  | scene :: rest, i, video_offsets =>
    let k := scene_key scene i
    offsets_after L rest (i + 1)
      (fun j => if j = k then offset_step (L k) (video_offsets k) scene else video_offsets j)

lemma offsets_after_untouched (L : ℕ → ℚ) :
    ∀ (l : List Scene) (i : ℕ) (off : ℕ → ℚ) (k : ℕ),
      (∀ x ∈ l, ∃ k', x.segment_index = some k' ∧ k' ≠ k) →
      offsets_after L l i off k = off k := by
  intro l
  induction l with
  | nil => intro i off k _; rfl
  | cons scene rest ih =>
    intro i off k h
    obtain ⟨k', hk', hne⟩ := h scene (List.mem_cons_self scene rest)
    show offsets_after L rest (i + 1) _ k = off k
    rw [ih (i + 1) _ k (fun x hx => h x (List.mem_cons_of_mem scene hx))]
    have hkey : scene_key scene i = k' := by rw [scene_key, hk']; rfl
    rw [hkey, if_neg hne.symm]

lemma offsets_after_append (L : ℕ → ℚ) :
    ∀ (l₁ l₂ : List Scene) (i : ℕ) (off : ℕ → ℚ),
      offsets_after L (l₁ ++ l₂) i off =
        offsets_after L l₂ (i + l₁.length) (offsets_after L l₁ i off) := by
  intro l₁
  induction l₁ with
  | nil => intro l₂ i off; simp [offsets_after]
  | cons scene rest ih =>
    intro l₂ i off
    show offsets_after L (rest ++ l₂) (i + 1) _ = _
    rw [ih]
    show offsets_after L l₂ (i + 1 + rest.length) _ =
      offsets_after L l₂ (i + (rest.length + 1)) _
    rw [show i + 1 + rest.length = i + (rest.length + 1) by omega]
    rfl

/-- C10: binding a non-sub-cut scene resets its segment's offset cursor
to 0 while binding a sub-cut scene advances the cursor to the end of the
window just used; hence consecutive-window continuity (`next start =
previous offset` whenever the window fits) holds only across an
uninterrupted run of sub-cuts of one segment, and a sub-cut whose
segment's last processed scene was a non-sub-cut reads cursor 0 and
starts again from offset 0 (when its duration fits the asset). -/
theorem offset_cursor_spec :
    (∀ (video_duration current_offset : ℚ) (scene : Scene),
      scene.is_subcut = false → offset_step video_duration current_offset scene = 0) ∧
    (∀ (video_duration current_offset : ℚ) (scene : Scene),
      scene.is_subcut = true →
      offset_step video_duration current_offset scene =
        subcut_start video_duration current_offset scene.duration + scene.duration) ∧
    (∀ (video_duration current_offset d : ℚ),
      current_offset + d ≤ video_duration →
      subcut_start video_duration current_offset d = current_offset) ∧
    (∀ (L : ℕ → ℚ) (l₁ l₂ : List Scene) (ns : Scene) (k i : ℕ) (off : ℕ → ℚ),
      ns.is_subcut = false → ns.segment_index = some k →
      (∀ x ∈ l₂, ∃ k', x.segment_index = some k' ∧ k' ≠ k) →
      offsets_after L (l₁ ++ ns :: l₂) i off k = 0) ∧
    (∀ (d video_duration : ℚ), 0 < d → d ≤ video_duration →
      subcut_start video_duration 0 d = 0) := by
  refine ⟨?_, ?_, ?_, ?_, ?_⟩
  · intro Lv off scene h
    unfold offset_step
    rw [h]
    rfl
  · intro Lv off scene h
    unfold offset_step
    rw [h, subcut_bind_eq]
    simp
  · intro Lv off d h
    unfold subcut_start
    rw [if_neg (not_lt.mpr h)]
  · intro L l₁ l₂ ns k i off hns hseg hl₂
    rw [offsets_after_append]
    show offsets_after L l₂ _ _ k = 0
    rw [offsets_after_untouched L l₂ _ _ k hl₂]
    have hkey : scene_key ns (i + l₁.length) = k := by rw [scene_key, hseg]; rfl
    rw [hkey]
    simp [offset_step, hns]
  · intro d Lv _ h
    unfold subcut_start
    rw [if_neg (not_lt.mpr (by linarith))]

/-- Concrete non-sub-cut scene of segment 1, used to witness
`offset_cursor_spec`. -/
def sampleSceneC10 : Scene :=
  { start_time := 0, end_time := 2, duration := 2, text := "t", segment_index := some 1 }

theorem offset_cursor_spec_witness :
    offset_step 10 3 sampleSceneC10 = 0 ∧
    subcut_start 10 4 2 = 4 ∧
    offsets_after (fun _ => 10) ([] ++ sampleSceneC10 :: []) 0 (fun _ => 7) 1 = 0 ∧
    subcut_start 10 0 2 = 0 :=
  ⟨offset_cursor_spec.1 10 3 sampleSceneC10 rfl,
    offset_cursor_spec.2.2.1 10 4 2 (by norm_num),
    offset_cursor_spec.2.2.2.1 (fun _ => 10) [] [] sampleSceneC10 1 0 (fun _ => 7) rfl rfl
      (by simp),
    offset_cursor_spec.2.2.2.2 2 10 (by norm_num) (by norm_num)⟩

/-! ## AssetResolver: `search_videos` — local tier and stock tiers
(`video_downloader.py` lines 654-791 and 794-1150) -/

/-- The per-variation dict appended to `segment_variations`. -/
structure VideoInfo where
  url : String
  local_path : String
  width : ℕ
  height : ℕ
  query : String
  segment_index : ℕ
  variation_number : ℕ
  source : String
  deriving DecidableEq, Repr

lemma getD_mod_mem {l : List String} (h : l ≠ []) (r : ℕ) (d : String) :
    l.getD (r % l.length) d ∈ l := by
  have hlen : 0 < l.length := List.length_pos.mpr h
  have hr : r % l.length < l.length := Nat.mod_lt _ hlen
  rw [List.getD_eq_getElem?_getD, List.getElem?_eq_getElem hr]
  exact List.getElem_mem hr

/-- One pick of the local tier (`search_videos`, lines 829-840): choose
a random unused file; when every file has been used once, clear
`used_local_files` ("Re-shuffling local library") and pick from the
whole pool again.  `random.choice` is modelled by the oracle index `r`
reduced modulo the candidate count; the returned `Bool` is the
reshuffle event. -/
def local_pick (local_files : List String) (used_local_files : Finset String) (r : ℕ) :
    String × Finset String × Bool :=
  let available_files := local_files.filter (fun f => f ∉ used_local_files)
  if available_files = [] then
    let chosen_file := local_files.getD (r % local_files.length) ""
    (chosen_file, {chosen_file}, true)
  else
    let chosen_file := available_files.getD (r % available_files.length) ""
    (chosen_file, insert chosen_file used_local_files, false)

/-- The sequence of local-tier picks a run performs (`n` picks, rng
oracle indexed from `ctr`), with the chosen file and the reshuffle flag
of each pick. -/
def local_run (local_files : List String) (rng : ℕ → ℕ) :
    ℕ → ℕ → Finset String → List (String × Bool)
  | 0, _, _ => []
  | n + 1, ctr, used =>
    let pick := local_pick local_files used (rng ctr)
    (pick.1, pick.2.2) :: local_run local_files rng n (ctr + 1) pick.2.1

lemma local_run_no_reshuffle_nodup (local_files : List String) (rng : ℕ → ℕ) :
    ∀ (n ctr : ℕ) (used : Finset String),
      (∀ p ∈ local_run local_files rng n ctr used, p.2 = false) →
      ((local_run local_files rng n ctr used).map Prod.fst).Nodup ∧
      ∀ p ∈ local_run local_files rng n ctr used, p.1 ∉ used := by
  intro n
  induction n with
  | zero => intro ctr used _; simp [local_run]
  | succ n ih =>
    intro ctr used hflags
    have havail : local_files.filter (fun f => f ∉ used) ≠ [] := by
      intro hc
      have hhead : ((local_pick local_files used (rng ctr)).1,
          (local_pick local_files used (rng ctr)).2.2) ∈
          local_run local_files rng (n + 1) ctr used := by
        show _ ∈ (_, _) :: _
        exact List.mem_cons_self _ _
      have := hflags _ hhead
      simp only [local_pick, hc, if_pos] at this
      simp at this
    have hcmem : (local_pick local_files used (rng ctr)).1 ∈
        local_files.filter (fun f => f ∉ used) := by
      simp only [local_pick, if_neg havail]
      exact getD_mod_mem havail (rng ctr) ""
    have hcnotused : (local_pick local_files used (rng ctr)).1 ∉ used := by
      have := List.mem_filter.mp hcmem
      simpa using this.2
    have hused' : (local_pick local_files used (rng ctr)).2.1 =
        insert (local_pick local_files used (rng ctr)).1 used := by
      simp only [local_pick, if_neg havail]
    have hrest := ih (ctr + 1) (local_pick local_files used (rng ctr)).2.1
      (fun p hp => hflags p (by
        show p ∈ (_, _) :: _
        exact List.mem_cons_of_mem _ hp))
    refine ⟨?_, ?_⟩
    · show (((local_pick local_files used (rng ctr)).1, _) ::
        local_run local_files rng n (ctr + 1) _).map Prod.fst |>.Nodup
      rw [List.map_cons, List.nodup_cons]
      refine ⟨?_, hrest.1⟩
      intro hc
      obtain ⟨p, hp, hpeq⟩ := List.mem_map.mp hc
      have := hrest.2 p hp
      rw [hused', hpeq] at this
      exact this (Finset.mem_insert_self _ _)
    · intro p hp
      rcases List.mem_cons.mp hp with heq | hmem
      · rw [heq]
        exact hcnotused
      · have := hrest.2 p hmem
        rw [hused'] at this
        intro hc
        exact this (Finset.mem_insert_of_mem hc)

/-- One entry of a Pexels `video_files` array. -/
structure VideoFile where
  width : ℤ
  height : ℤ
  link : String
  deriving DecidableEq, Repr

/-- One video of a Pexels search response. -/
structure PexelsVideo where
  duration : ℤ
  video_files : List VideoFile
  deriving DecidableEq, Repr

/-- One hit of a Pixabay search response; the `videos` dict is modelled
by its three optional quality entries. -/
structure PixabayHit where
  duration : ℤ
  large : Option String
  medium : Option String
  small : Option String
  deriving DecidableEq, Repr

def MIN_VIDEO_DURATION : ℤ := 15

/-- Stable insertion used to model Python's stable
`list.sort(key=...)`. -/
def insertByKey (key : VideoFile → ℤ) (x : VideoFile) : List VideoFile → List VideoFile
  | [] => [x]
  | y :: ys => if key x ≤ key y then x :: y :: ys else y :: insertByKey key x ys

/-- Stable sort by key, ascending
(`vertical_files.sort(key=lambda x: abs(x.get("height", 0) - target_height))`). -/
def sortByKey (key : VideoFile → ℤ) : List VideoFile → List VideoFile
  | [] => []
  | x :: xs => insertByKey key x (sortByKey key xs)

/-- Link selection of `search_pexels`: keep the vertical files
(`height > width`), sort by closeness to height 1920, take the first
link; `none` when no vertical file exists. -/
def pexels_pick_link (video_files : List VideoFile) : Option String :=
  let vertical_files := video_files.filter (fun vf => vf.width < vf.height)
  ((sortByKey (fun x => |x.height - 1920|) vertical_files).head?).map VideoFile.link

/-- The response loop of `search_pexels` (`video_downloader.py` lines
683-715): skip videos shorter than `MIN_VIDEO_DURATION`, skip videos
without vertical files, skip links already in the run's shared
`seen_video_urls` set, otherwise collect the link, add it to the seen
set, and stop once `SCENE_VIDEO_VARIATIONS` links are collected.
Returns the collected unique links and the updated seen set. -/
def search_pexels_loop (variations : ℕ) :
    List PexelsVideo → List String → Finset String → List String × Finset String
  | [], video_urls, seen => (video_urls, seen)
  | video :: rest, video_urls, seen =>
    if video.duration < MIN_VIDEO_DURATION then
      search_pexels_loop variations rest video_urls seen
    else
      match pexels_pick_link video.video_files with
      | none => search_pexels_loop variations rest video_urls seen
      | some video_url =>
        if video_url ∈ seen then search_pexels_loop variations rest video_urls seen
        else
          if variations ≤ (video_urls ++ [video_url]).length then
            (video_urls ++ [video_url], insert video_url seen)
          else
            search_pexels_loop variations rest (video_urls ++ [video_url])
              (insert video_url seen)

/-- `search_pexels(query, orientation, seen_video_urls)`, applied to the
videos of the API response for the query. -/
def search_pexels (variations : ℕ) (response_videos : List PexelsVideo)
    (seen_video_urls : Finset String) : List String × Finset String :=
  search_pexels_loop variations response_videos [] seen_video_urls

/-- Quality preference of `search_pixabay`: large, then medium, then
small. -/
def pixabay_pick_url (hit : PixabayHit) : Option String :=
  match hit.large with
  | some u => some u
  | none =>
    match hit.medium with
    | some u => some u
    | none => hit.small

/-- The hit loop of `search_pixabay` (`video_downloader.py` lines
752-787): same skeleton as the Pexels loop — duration filter, quality
pick, global dedup against `seen_video_urls`, stop at the variation
quota. -/
def search_pixabay_loop (variations : ℕ) :
    List PixabayHit → List String → Finset String → List String × Finset String
  | [], video_urls, seen => (video_urls, seen)
  | hit :: rest, video_urls, seen =>
    if hit.duration < MIN_VIDEO_DURATION then
      search_pixabay_loop variations rest video_urls seen
    else
      match pixabay_pick_url hit with
      | none => search_pixabay_loop variations rest video_urls seen
      | some video_url =>
        if video_url ∈ seen then search_pixabay_loop variations rest video_urls seen
        else
          if variations ≤ (video_urls ++ [video_url]).length then
            (video_urls ++ [video_url], insert video_url seen)
          else
            search_pixabay_loop variations rest (video_urls ++ [video_url])
              (insert video_url seen)

/-- `search_pixabay(query, orientation, seen_video_urls)` on the hits of
the API response. -/
def search_pixabay (variations : ℕ) (response_hits : List PixabayHit)
    (seen_video_urls : Finset String) : List String × Finset String :=
  search_pixabay_loop variations response_hits [] seen_video_urls

lemma search_pexels_loop_inv (variations : ℕ) :
    ∀ (items : List PexelsVideo) (acc : List String) (seen : Finset String),
      acc.Nodup → (∀ u ∈ acc, u ∈ seen) →
      (search_pexels_loop variations items acc seen).1.Nodup ∧
      (∀ u ∈ (search_pexels_loop variations items acc seen).1,
        u ∈ (search_pexels_loop variations items acc seen).2) ∧
      (∀ u ∈ seen, u ∈ (search_pexels_loop variations items acc seen).2) ∧
      (∀ u ∈ (search_pexels_loop variations items acc seen).1, u ∉ acc → u ∉ seen) := by
  intro items
  induction items with
  | nil =>
    intro acc seen hnd hsub
    exact ⟨hnd, hsub, fun u hu => hu, fun u hu hnacc => absurd hu hnacc⟩
  | cons item rest ih =>
    intro acc seen hnd hsub
    by_cases hdur : item.duration < MIN_VIDEO_DURATION
    · simp only [search_pexels_loop, if_pos hdur]
      exact ih acc seen hnd hsub
    · simp only [search_pexels_loop, if_neg hdur]
      cases hpick : pexels_pick_link item.video_files with
      | none =>
        exact ih acc seen hnd hsub
      | some url =>
        dsimp only
        by_cases hseen : url ∈ seen
        · simp only [if_pos hseen]
          exact ih acc seen hnd hsub
        · simp only [if_neg hseen]
          have hnd' : (acc ++ [url]).Nodup := by
            rw [List.nodup_append]
            refine ⟨hnd, List.nodup_singleton url, ?_⟩
            intro u hu hmem
            simp only [List.mem_singleton] at hmem
            subst hmem
            exact hseen (hsub _ hu)
          have hsub' : ∀ u ∈ acc ++ [url], u ∈ insert url seen := by
            intro u hu
            rcases List.mem_append.mp hu with h | h
            · exact Finset.mem_insert_of_mem (hsub u h)
            · simp only [List.mem_singleton] at h
              subst h
              exact Finset.mem_insert_self _ _
          by_cases hquota : variations ≤ (acc ++ [url]).length
          · simp only [if_pos hquota]
            refine ⟨hnd', hsub', ?_, ?_⟩
            · intro u hu
              exact Finset.mem_insert_of_mem hu
            · intro u hu hnacc
              rcases List.mem_append.mp hu with h | h
              · exact absurd h hnacc
              · simp only [List.mem_singleton] at h
                subst h
                exact hseen
          · simp only [if_neg hquota]
            obtain ⟨r1, r2, r3, r4⟩ := ih (acc ++ [url]) (insert url seen) hnd' hsub'
            refine ⟨r1, r2, fun u hu => r3 u (Finset.mem_insert_of_mem hu), ?_⟩
            intro u hu hnacc
            by_cases heq : u = url
            · subst heq
              exact hseen
            · have hnacc' : u ∉ acc ++ [url] := by
                intro hc
                rcases List.mem_append.mp hc with h | h
                · exact hnacc h
                · simp only [List.mem_singleton] at h
                  exact heq h
              have hr := r4 u hu hnacc'
              intro hc
              exact hr (Finset.mem_insert_of_mem hc)

lemma search_pixabay_loop_inv (variations : ℕ) :
    ∀ (items : List PixabayHit) (acc : List String) (seen : Finset String),
      acc.Nodup → (∀ u ∈ acc, u ∈ seen) →
      (search_pixabay_loop variations items acc seen).1.Nodup ∧
      (∀ u ∈ (search_pixabay_loop variations items acc seen).1,
        u ∈ (search_pixabay_loop variations items acc seen).2) ∧
      (∀ u ∈ seen, u ∈ (search_pixabay_loop variations items acc seen).2) ∧
      (∀ u ∈ (search_pixabay_loop variations items acc seen).1, u ∉ acc → u ∉ seen) := by
  intro items
  induction items with
  | nil =>
    intro acc seen hnd hsub
    exact ⟨hnd, hsub, fun u hu => hu, fun u hu hnacc => absurd hu hnacc⟩
  | cons item rest ih =>
    intro acc seen hnd hsub
    by_cases hdur : item.duration < MIN_VIDEO_DURATION
    · simp only [search_pixabay_loop, if_pos hdur]
      exact ih acc seen hnd hsub
    · simp only [search_pixabay_loop, if_neg hdur]
      cases hpick : pixabay_pick_url item with
      | none =>
        exact ih acc seen hnd hsub
      | some url =>
        dsimp only
        by_cases hseen : url ∈ seen
        · simp only [if_pos hseen]
          exact ih acc seen hnd hsub
        · simp only [if_neg hseen]
          have hnd' : (acc ++ [url]).Nodup := by
            rw [List.nodup_append]
            refine ⟨hnd, List.nodup_singleton url, ?_⟩
            intro u hu hmem
            simp only [List.mem_singleton] at hmem
            subst hmem
            exact hseen (hsub _ hu)
          have hsub' : ∀ u ∈ acc ++ [url], u ∈ insert url seen := by
            intro u hu
            rcases List.mem_append.mp hu with h | h
            · exact Finset.mem_insert_of_mem (hsub u h)
            · simp only [List.mem_singleton] at h
              subst h
              exact Finset.mem_insert_self _ _
          by_cases hquota : variations ≤ (acc ++ [url]).length
          · simp only [if_pos hquota]
            refine ⟨hnd', hsub', ?_, ?_⟩
            · intro u hu
              exact Finset.mem_insert_of_mem hu
            · intro u hu hnacc
              rcases List.mem_append.mp hu with h | h
              · exact absurd h hnacc
              · simp only [List.mem_singleton] at h
                subst h
                exact hseen
          · simp only [if_neg hquota]
            obtain ⟨r1, r2, r3, r4⟩ := ih (acc ++ [url]) (insert url seen) hnd' hsub'
            refine ⟨r1, r2, fun u hu => r3 u (Finset.mem_insert_of_mem hu), ?_⟩
            intro u hu hnacc
            by_cases heq : u = url
            · subst heq
              exact hseen
            · have hnacc' : u ∉ acc ++ [url] := by
                intro hc
                rcases List.mem_append.mp hc with h | h
                · exact hnacc h
                · simp only [List.mem_singleton] at h
                  exact heq h
              have hr := r4 u hu hnacc'
              intro hc
              exact hr (Finset.mem_insert_of_mem hc)

/-- One stock-search call of a run, with the API response it receives.
`search_videos` issues such calls for the specific query, the secondary
provider, the aesthetic fallbacks and the generic topic fallback, always
threading the run's single `seen_video_urls` set through every call. -/
inductive StockSearch where
  | pexels (response : List PexelsVideo)
  | pixabay (response : List PixabayHit)

/-- The sequence of stock-search calls of one generation run: each call
reads and updates the shared `seen_video_urls` set, and all returned
URLs are concatenated (as `video_urls.extend(additional)` does across
tiers and segments). -/
def run_stock_searches (variations : ℕ) :
    List StockSearch → Finset String → List String × Finset String
  | [], seen => ([], seen)
  | req :: reqs, seen =>
    let step := match req with
      | StockSearch.pexels response => search_pexels variations response seen
      | StockSearch.pixabay response => search_pixabay variations response seen
    let rest := run_stock_searches variations reqs step.2
    (step.1 ++ rest.1, rest.2)

lemma run_stock_searches_inv (variations : ℕ) :
    ∀ (reqs : List StockSearch) (seen : Finset String),
      (run_stock_searches variations reqs seen).1.Nodup ∧
      (∀ u ∈ (run_stock_searches variations reqs seen).1, u ∉ seen) ∧
      (∀ u ∈ (run_stock_searches variations reqs seen).1,
        u ∈ (run_stock_searches variations reqs seen).2) ∧
      (∀ u ∈ seen, u ∈ (run_stock_searches variations reqs seen).2) := by
  intro reqs
  induction reqs with
  | nil =>
    intro seen
    exact ⟨List.nodup_nil, by simp [run_stock_searches], by simp [run_stock_searches],
      by simp [run_stock_searches]⟩
  | cons req reqs ih =>
    intro seen
    have hstep : ∀ (step : List String × Finset String),
        step.1.Nodup → (∀ u ∈ step.1, u ∈ step.2) → (∀ u ∈ seen, u ∈ step.2) →
        (∀ u ∈ step.1, u ∉ seen) →
        ((step.1 ++ (run_stock_searches variations reqs step.2).1).Nodup ∧
          (∀ u ∈ step.1 ++ (run_stock_searches variations reqs step.2).1, u ∉ seen) ∧
          (∀ u ∈ step.1 ++ (run_stock_searches variations reqs step.2).1,
            u ∈ (run_stock_searches variations reqs step.2).2) ∧
          (∀ u ∈ seen, u ∈ (run_stock_searches variations reqs step.2).2)) := by
      intro step s1 s2 s3 s4
      obtain ⟨r1, r2, r3, r4⟩ := ih step.2
      refine ⟨?_, ?_, ?_, ?_⟩
      · rw [List.nodup_append]
        refine ⟨s1, r1, ?_⟩
        intro u hu hmem
        exact r2 u hmem (s2 u hu)
      · intro u hu
        rcases List.mem_append.mp hu with h | h
        · exact s4 u h
        · intro hc
          exact r2 u h (s3 u hc)
      · intro u hu
        rcases List.mem_append.mp hu with h | h
        · exact r4 u (s2 u h)
        · exact r3 u h
      · intro u hu
        exact r4 u (s3 u hu)
    cases req with
    | pexels response =>
      have hinv := search_pexels_loop_inv variations response [] seen
        List.nodup_nil (by simp)
      exact hstep (search_pexels variations response seen) hinv.1 hinv.2.1 hinv.2.2.1
        (fun u hu hc => hinv.2.2.2 u hu (by simp) hc)
    | pixabay response =>
      have hinv := search_pixabay_loop_inv variations response [] seen
        List.nodup_nil (by simp)
      exact hstep (search_pixabay variations response seen) hinv.1 hinv.2.1 hinv.2.2.1
        (fun u hu hc => hinv.2.2.2 u hu (by simp) hc)

/-- C3 (amended): within one generation run the local and stock tiers
never hand out the same asset URI twice except after an explicit
exhaustion-and-reshuffle of the local pool.  (i) Across any sequence of
stock-search calls sharing the run's `seen_video_urls` set, the
collected URLs are pairwise distinct and disjoint from every URI
already seen; (ii) in the local tier, any stretch of picks containing
no reshuffle event selects pairwise distinct files, none of them
already in the used-file set.  (The curated/YouTube tiers consult no
seen set — see the counterexample below.) -/
theorem no_duplicate_asset_uris (variations : ℕ) (local_files : List String)
    (rng : ℕ → ℕ) :
    (∀ (reqs : List StockSearch) (seen : Finset String),
      (run_stock_searches variations reqs seen).1.Nodup ∧
      ∀ u ∈ (run_stock_searches variations reqs seen).1, u ∉ seen) ∧
    (∀ (n ctr : ℕ) (used : Finset String),
      (∀ p ∈ local_run local_files rng n ctr used, p.2 = false) →
      ((local_run local_files rng n ctr used).map Prod.fst).Nodup ∧
      ∀ p ∈ local_run local_files rng n ctr used, p.1 ∉ used) := by
  constructor
  · intro reqs seen
    have := run_stock_searches_inv variations reqs seen
    exact ⟨this.1, this.2.1⟩
  · intro n ctr used hflags
    exact local_run_no_reshuffle_nodup local_files rng n ctr used hflags

/-- A small Pexels response used to witness `no_duplicate_asset_uris`:
the second video carries the same link as the first and must be
deduplicated. -/
def samplePexelsResponse : List PexelsVideo :=
  [{ duration := 20, video_files := [{ width := 1080, height := 1920, link := "u1" }] },
   { duration := 20, video_files := [{ width := 1080, height := 1920, link := "u1" }] },
   { duration := 20, video_files := [{ width := 1080, height := 1920, link := "u2" }] }]

theorem no_duplicate_asset_uris_witness :
    ((run_stock_searches 3 [StockSearch.pexels samplePexelsResponse] ∅).1.Nodup ∧
      ∀ u ∈ (run_stock_searches 3 [StockSearch.pexels samplePexelsResponse] ∅).1,
        u ∉ (∅ : Finset String)) ∧
    (((local_run ["a", "b"] (fun n => n) 2 0 ∅).map Prod.fst).Nodup ∧
      ∀ p ∈ local_run ["a", "b"] (fun n => n) 2 0 ∅, p.1 ∉ (∅ : Finset String)) :=
  ⟨(no_duplicate_asset_uris 3 ["a", "b"] (fun n => n)).1
      [StockSearch.pexels samplePexelsResponse] ∅,
    (no_duplicate_asset_uris 3 ["a", "b"] (fun n => n)).2 2 0 ∅
      (by with_unfolding_all decide)⟩

/-- The inner `for variation_num in range(1, config.SCENE_VIDEO_VARIATIONS
+ 1)` loop of the local tier (`search_videos`, lines 829-853): one
`local_pick` per variation, building the `video_info` dicts.  Threads
the shared `used_local_files` set and the rng counter. -/
def local_fill_seg (local_files : List String) (rng : ℕ → ℕ) (raw_query : String) (i : ℕ) :
    List ℕ → Finset String → ℕ → List VideoInfo × Finset String × ℕ
  | [], used, ctr => ([], used, ctr)
  | variation_num :: vs, used, ctr =>
    let pick := local_pick local_files used (rng ctr)
    let rest := local_fill_seg local_files rng raw_query i vs pick.2.1 (ctr + 1)
    ({ url := "local", local_path := pick.1, width := 1080, height := 1920,
       query := raw_query, segment_index := i, variation_number := variation_num,
       source := "local" } :: rest.1, rest.2.1, rest.2.2)

/-- The outer `for i, raw_query in enumerate(visual_queries)` loop of
the local tier (`search_videos`, lines 825-856): `used_local_files`
persists across segments. -/
def local_branch (local_files : List String) (K : ℕ) (rng : ℕ → ℕ) :
    List String → ℕ → Finset String → ℕ → List (List VideoInfo)
  | [], _, _, _ => []
  | raw_query :: qs, i, used, ctr =>
    let seg := local_fill_seg local_files rng raw_query i (List.range' 1 K) used ctr
    seg.1 :: local_branch local_files K rng qs (i + 1) seg.2.1 seg.2.2

/-- `search_videos(visual_queries, fallback_topic)`
(`video_downloader.py` lines 794-1150), at the granularity the claims
need: when the local footage pool is non-empty the function fills every
segment from the local pool and returns (lines 819-858); the whole
remainder of the function (priority 2 — curated YouTube — and priority
3 — automated search, lines 860-1150) is the `nonlocal_tiers`
continuation, an arbitrary input here because the claims only concern
the short-circuit. -/
def search_videos (local_files : List String) (visual_queries : List String) (K : ℕ)
    (rng : ℕ → ℕ) (nonlocal_tiers : List (List VideoInfo)) : List (List VideoInfo) :=
  if local_files = [] then nonlocal_tiers
  else local_branch local_files K rng visual_queries 0 ∅ 0

lemma local_pick_mem {local_files : List String} (hlf : local_files ≠ [])
    (used : Finset String) (r : ℕ) : (local_pick local_files used r).1 ∈ local_files := by
  unfold local_pick
  by_cases h : local_files.filter (fun f => f ∉ used) = []
  · simp only [if_pos h]
    exact getD_mod_mem hlf r ""
  · simp only [if_neg h]
    have := getD_mod_mem h r ""
    exact List.mem_of_mem_filter this

lemma local_fill_seg_spec {local_files : List String} (hlf : local_files ≠ [])
    (rng : ℕ → ℕ) (raw_query : String) (i : ℕ) :
    ∀ (vs : List ℕ) (used : Finset String) (ctr : ℕ),
      (local_fill_seg local_files rng raw_query i vs used ctr).1.length = vs.length ∧
      ∀ v ∈ (local_fill_seg local_files rng raw_query i vs used ctr).1,
        v.source = "local" ∧ v.url = "local" ∧ v.local_path ∈ local_files := by
  intro vs
  induction vs with
  | nil => intro used ctr; exact ⟨rfl, by simp [local_fill_seg]⟩
  | cons variation_num vs ih =>
    intro used ctr
    obtain ⟨ihlen, ihmem⟩ := ih (local_pick local_files used (rng ctr)).2.1 (ctr + 1)
    refine ⟨?_, ?_⟩
    · simp only [local_fill_seg, List.length_cons, ihlen]
    · intro v hv
      simp only [local_fill_seg] at hv
      rcases List.mem_cons.mp hv with heq | hmem
      · rw [heq]
        exact ⟨rfl, rfl, local_pick_mem hlf used (rng ctr)⟩
      · exact ihmem v hmem

lemma local_branch_spec {local_files : List String} (hlf : local_files ≠ [])
    (K : ℕ) (rng : ℕ → ℕ) :
    ∀ (qs : List String) (i : ℕ) (used : Finset String) (ctr : ℕ),
      (local_branch local_files K rng qs i used ctr).length = qs.length ∧
      ∀ seg ∈ local_branch local_files K rng qs i used ctr,
        seg.length = K ∧
        ∀ v ∈ seg, v.source = "local" ∧ v.url = "local" ∧ v.local_path ∈ local_files := by
  intro qs
  induction qs with
  | nil => intro i used ctr; exact ⟨rfl, by simp [local_branch]⟩
  | cons raw_query qs ih =>
    intro i used ctr
    obtain ⟨ihlen, ihmem⟩ := ih (i + 1)
      (local_fill_seg local_files rng raw_query i (List.range' 1 K) used ctr).2.1
      (local_fill_seg local_files rng raw_query i (List.range' 1 K) used ctr).2.2
    refine ⟨by simp only [local_branch, List.length_cons, ihlen], ?_⟩
    intro seg hseg
    simp only [local_branch] at hseg
    rcases List.mem_cons.mp hseg with heq | hmem
    · obtain ⟨hl, hm⟩ := local_fill_seg_spec hlf rng raw_query i (List.range' 1 K) used ctr
      rw [heq]
      exact ⟨by rw [hl, List.length_range'], hm⟩
    · exact ihmem seg hmem

/-- C5: with a non-empty local footage pool, `search_videos` fills every
segment's `K` variations exclusively from local files and returns
without consulting the curated-YouTube or stock-search tiers — the
result is the pure local-branch computation, independent of whatever
the non-local tiers would produce.  Picks are without replacement
within one pass (`local_pick` never returns a file in the used set
unless the pool was exhausted), and the used set is cleared and
reshuffled exactly when the pool is exhausted. -/
theorem search_videos_local_short_circuit (local_files : List String)
    (visual_queries : List String) (K : ℕ) (rng : ℕ → ℕ)
    (hlf : local_files ≠ []) :
    (∀ nonlocal_tiers : List (List VideoInfo),
      search_videos local_files visual_queries K rng nonlocal_tiers =
        local_branch local_files K rng visual_queries 0 ∅ 0) ∧
    (search_videos local_files visual_queries K rng []).length = visual_queries.length ∧
    (∀ seg ∈ search_videos local_files visual_queries K rng [],
      seg.length = K ∧
      ∀ v ∈ seg, v.source = "local" ∧ v.url = "local" ∧ v.local_path ∈ local_files) ∧
    (∀ (used : Finset String) (r : ℕ),
      local_files.filter (fun f => f ∉ used) ≠ [] →
      (local_pick local_files used r).1 ∉ used ∧
      (local_pick local_files used r).2.2 = false) ∧
    (∀ (used : Finset String) (r : ℕ),
      local_files.filter (fun f => f ∉ used) = [] →
      (local_pick local_files used r).2.2 = true) := by
  have hbranch : ∀ nonlocal_tiers : List (List VideoInfo),
      search_videos local_files visual_queries K rng nonlocal_tiers =
        local_branch local_files K rng visual_queries 0 ∅ 0 := by
    intro nonlocal_tiers
    unfold search_videos
    rw [if_neg hlf]
  obtain ⟨hlen, hmem⟩ := local_branch_spec hlf K rng visual_queries 0 ∅ 0
  refine ⟨hbranch, ?_, ?_, ?_, ?_⟩
  · rw [hbranch []]
    exact hlen
  · rw [hbranch []]
    exact hmem
  · intro used r h
    constructor
    · have hc : (local_pick local_files used r).1 ∈
          local_files.filter (fun f => f ∉ used) := by
        simp only [local_pick, if_neg h]
        exact getD_mod_mem h r ""
      have := List.mem_filter.mp hc
      simpa using this.2
    · simp only [local_pick, if_neg h]
  · intro used r h
    simp only [local_pick, if_pos h]

theorem search_videos_local_short_circuit_witness :
    (["a.mp4", "b.mp4"] : List String) ≠ [] ∧
    ((∀ nonlocal_tiers : List (List VideoInfo),
      search_videos ["a.mp4", "b.mp4"] ["q0", "q1"] 2 (fun n => n) nonlocal_tiers =
        local_branch ["a.mp4", "b.mp4"] 2 (fun n => n) ["q0", "q1"] 0 ∅ 0) ∧
    (search_videos ["a.mp4", "b.mp4"] ["q0", "q1"] 2 (fun n => n) []).length = 2 ∧
    (∀ seg ∈ search_videos ["a.mp4", "b.mp4"] ["q0", "q1"] 2 (fun n => n) [],
      seg.length = 2 ∧
      ∀ v ∈ seg, v.source = "local" ∧ v.url = "local" ∧
        v.local_path ∈ ["a.mp4", "b.mp4"]) ∧
    (∀ (used : Finset String) (r : ℕ),
      (["a.mp4", "b.mp4"] : List String).filter (fun f => f ∉ used) ≠ [] →
      (local_pick ["a.mp4", "b.mp4"] used r).1 ∉ used ∧
      (local_pick ["a.mp4", "b.mp4"] used r).2.2 = false) ∧
    (∀ (used : Finset String) (r : ℕ),
      (["a.mp4", "b.mp4"] : List String).filter (fun f => f ∉ used) = [] →
      (local_pick ["a.mp4", "b.mp4"] used r).2.2 = true)) :=
  ⟨by decide, search_videos_local_short_circuit ["a.mp4", "b.mp4"] ["q0", "q1"] 2
    (fun n => n) (by decide)⟩

/-! ## The curated/YouTube tier consults no seen-URI set
(`download_youtube_clip`, `video_downloader.py` lines 325-613, and the
priority-2 variation loop of `search_videos`, lines 869-913) -/

/-- The URL-selection loop of `download_youtube_clip` (lines 364-613):
up to `min(len(video_urls), 3)` attempts; each attempt draws a random
URL not yet attempted in THIS CALL (`attempted_urls` is a local
variable, so nothing is shared across calls and no seen-URI set is
consulted), skips it when the source is shorter than 120 s or leaves no
safe window (`duration - 60 - clip_duration <= 60`), and otherwise
tries to download a clip from it.  `random.choice` is the oracle index
stream `rng`; `duration_of` is the `extract_info` duration; the three
download methods (range download, full download + local cut, 720p last
resort) are collapsed into the per-URL success oracle `download_ok`,
and the random in-video start time is absorbed into it.  The Python
function returns only `True`/`False`, writing the clip extracted from
the chosen source URL to `output_path`; the embedding returns the
chosen source URL itself, since that is the underlying asset URI the
variation ends up bound to. -/
def download_youtube_clip_go (video_urls : List String) (rng : ℕ → ℕ)
    (duration_of : String → ℤ) (download_ok : String → Bool) (clip_duration : ℤ) :
    ℕ → List String → ℕ → Option String
  | 0, _, _ => none
  | attempt + 1, attempted_urls, ctr =>
    let available_urls := video_urls.filter (fun u => u ∉ attempted_urls)
    if available_urls = [] then none
    else
      let video_url := available_urls.getD (rng ctr % available_urls.length) ""
      if duration_of video_url < 120 then
        download_youtube_clip_go video_urls rng duration_of download_ok clip_duration
          attempt (attempted_urls ++ [video_url]) (ctr + 1)
      else if duration_of video_url - 60 - clip_duration ≤ 60 then
        download_youtube_clip_go video_urls rng duration_of download_ok clip_duration
          attempt (attempted_urls ++ [video_url]) (ctr + 1)
      else if download_ok video_url then some video_url
      else
        download_youtube_clip_go video_urls rng duration_of download_ok clip_duration
          attempt (attempted_urls ++ [video_url]) (ctr + 1)

/-- `download_youtube_clip(video_urls, output_path, clip_duration)`
with a fresh, empty `attempted_urls` list — as every call site invokes
it. -/
def download_youtube_clip (video_urls : List String) (rng : ℕ → ℕ)
    (duration_of : String → ℤ) (download_ok : String → Bool)
    (clip_duration : ℤ) : Option String :=
  download_youtube_clip_go video_urls rng duration_of download_ok clip_duration
    (min video_urls.length 3) [] 0

/-- The priority-2 (curated YouTube) variation loop for one segment
(`search_videos`, lines 891-911): one `download_youtube_clip` call per
variation over the SAME category URL list, each with its own rng stream
(`rng variation_num`), and no seen-URI set anywhere in the tier.  Entry
`v` is the source URL bound to variation `v + 1` (`none` = all download
attempts failed, line 910). -/
def manual_tier_segment (category_urls : List String) (K : ℕ) (rng : ℕ → ℕ → ℕ)
    (duration_of : String → ℤ) (download_ok : String → Bool) : List (Option String) :=
  (List.range' 1 K).map fun variation_num =>
    download_youtube_clip category_urls (rng variation_num) duration_of download_ok 4

/-- C3 (counterexample to the claim as stated): the curated-YouTube
tier consults and updates no shared seen-URI set, so "every tier
consults and updates the run's shared seen-URI set" is false and an
asset URI can be returned twice with no exhaustion-and-reshuffle
event: with one curated URL configured for the category, a 600-second
source and both downloads succeeding, variations 1 and 2 of the same
segment are both bound to the source URL
"https://youtu.be/curated1". -/
theorem youtube_tier_rebinds_same_uri :
    manual_tier_segment ["https://youtu.be/curated1"] 2 (fun _ _ => 0)
        (fun _ => 600) (fun _ => true) =
      [some "https://youtu.be/curated1", some "https://youtu.be/curated1"] ∧
    (manual_tier_segment ["https://youtu.be/curated1"] 2 (fun _ _ => 0)
        (fun _ => 600) (fun _ => true)).getD 0 none =
      (manual_tier_segment ["https://youtu.be/curated1"] 2 (fun _ _ => 0)
        (fun _ => 600) (fun _ => true)).getD 1 none := by
  with_unfolding_all decide
